import Mathlib

/-!
# file-sync: the mark-data monitor (`main-c-v2.go`, `main-c-v1.go`)

A shallow embedding of the polling loop of `main` (and of `main1`, whose
reader is the same code without the spreadsheet) together with the
properties of its cursor, extractor, dedup map and sheet.

Modelling conventions
* A Go `string` is a `List Char` (`Str`): the text is taken to be valid
  UTF-8 and is handled rune by rune, which is how `regexp` and
  `strings.TrimSpace` look at it; a read ends between two runes.
* `lastPos` and the file size are byte counts (`Nat`; the code only compares
  and assigns them, so `int64` arithmetic never overflows), and `rowCount`
  is a `Nat` (it starts at 1 or more and is only incremented).
* The operating system is the environment: what `os.Open`, `Stat`, `Seek`,
  the scanner and `SaveAs` answer in one iteration is a `PollEnv`, and the
  loop is run over a list of such answers. An error of the scanner (a read
  error, a line too long for its buffer) is the flag `scanErr`.
* The sheet is a map from cells to values; `SetCellValue` always stores the
  value (the code ignores its result, and the row limit of the file format is
  not modelled) and `GetRows` follows the contract the library documents on
  blank cells. Values are kept as set, which the library does for short plain
  text only; rows read back are used on such text alone.
* `pollStep` and `run` follow the loop of `main` statement by statement;
  `acceptRecord`, `pollRecords`, `extractedBy` and `cursorAfter` are a second
  description of the same loop, proved equal to it in `pollStep_state` and
  `run_state`, on which the proofs about many iterations rest.
-/

namespace FileSync

/-- A Go string, rune by rune. -/
abbrev Str := List Char

/-! ## The record (`type MarkRecord struct`) -/

/-- The struct `MarkRecord` of `main-c-v2.go`. -/
structure MarkRecord where
  Date : Str
  Time : Str
  Data : Str
deriving DecidableEq, Repr

/-! ## `unicode.IsSpace` and `strings.TrimSpace` -/

/-- The predicate `unicode.IsSpace`: the Latin-1 cases of its switch and the
ranges of the table `White_Space` above Latin-1. -/
def isSpace (c : Char) : Bool :=
  let n := c.toNat
  n = 0x09 || n = 0x0A || n = 0x0B || n = 0x0C || n = 0x0D || n = 0x20 ||
  n = 0x85 || n = 0xA0 || n = 0x1680 || (0x2000 ≤ n && n ≤ 0x200A) ||
  n = 0x2028 || n = 0x2029 || n = 0x202F || n = 0x205F || n = 0x3000

/-- The function `strings.TrimSpace`: leading and trailing white space
removed. -/
def trimSpace (s : Str) : Str :=
  ((s.dropWhile isSpace).reverse.dropWhile isSpace).reverse

/-! ## The regular expression `markRegex`

`regexp` returns the leftmost match and, among the matches starting there,
the one a backtracking search finds first; `.` does not match a newline and a
lazy `.*?` tries the shorter capture first. The expression is a sequence of
literals and lazy captures, which is what `Item` describes. -/

/-- One piece of the expression: a literal, or a capturing `(.*?)`. -/
inductive Item where
  | lit (cs : Str)
  | lazyDots
deriving DecidableEq, Repr

/-- The text after a literal, when the input starts with that literal. -/
def stripLit : Str → Str → Option Str
  | [], s => some s
  | _ :: _, [] => none
  | c :: cs, d :: s => if c = d then stripLit cs s else none

/-- Adds a rune in front of the newest capture. -/
def consCapture (c : Char) : List Str × Str → Option (List Str × Str)
  | (g :: gs, rest) => some ((c :: g) :: gs, rest)
  | ([], _) => none

/-- The capture `(.*?)` followed by the continuation `k`: first the empty
capture, then one rune more at a time, never over a newline. -/
def lazyDots (k : Str → Option (List Str × Str)) : Str → Option (List Str × Str)
  | [] =>
    match k [] with
    | some (gs, rest) => some ([] :: gs, rest)
    | none => none
  | c :: s =>
    match k (c :: s) with
    | some (gs, rest) => some ([] :: gs, rest)
    | none => if c = '\n' then none else (lazyDots k s).bind (consCapture c)

/-- Backtracking match of a sequence of items at the start of the input:
the captures in order and the text left after the match. -/
def matchItems : List Item → Str → Option (List Str × Str)
  | [] => fun s => some ([], s)
  | Item.lit cs :: is => fun s => (stripLit cs s).bind (matchItems is)
  | Item.lazyDots :: is => lazyDots (matchItems is)

/-- The expression `&\[\((.*?) (.*?)\)\n(.*?)\n&\]` of `markRegex`. -/
def markRegex : List Item :=
  [Item.lit ['&', '[', '('], Item.lazyDots, Item.lit [' '], Item.lazyDots,
   Item.lit [')', '\n'], Item.lazyDots, Item.lit ['\n', '&', ']']]

/-- A match of `markRegex` at the start of the input: the submatch slice
`[whole, date, time, data]` and the text after the match. -/
def matchHere (s : Str) : Option (List Str × Str) :=
  match matchItems markRegex s with
  | some (gs, rest) => some (s.take (s.length - rest.length) :: gs, rest)
  | none => none

/-- The search of `FindAllStringSubmatch` with a bound on the number of
steps: the leftmost match, then the search goes on after it. -/
def findAllFuel : Nat → Str → List (List Str)
  | 0, _ => []
  | fuel + 1, s =>
    match matchHere s with
    | some (m, rest) => m :: findAllFuel fuel rest
    | none =>
      match s with
      | [] => []
      | _ :: t => findAllFuel fuel t

/-- The call `markRegex.FindAllStringSubmatch(content, -1)`. -/
def findAllStringSubmatch (content : Str) : List (List Str) :=
  findAllFuel (content.length + 1) content

/-- The fields read from one match (lines 186-189): `match[1]`, `match[2]`
and the trimmed `match[3]`, when `len(match) >= 4`. -/
def recordOfMatch : List Str → Option MarkRecord
  | _ :: d :: t :: p :: _ => some ⟨d, t, trimSpace p⟩
  | _ => none

/-- The records of a buffer, in the order the loop of line 185 sees them. -/
def extract (content : Str) : List MarkRecord :=
  (findAllStringSubmatch content).filterMap recordOfMatch

/-! ## The scanner (`bufio.Scanner` with `ScanLines`) and the buffer -/

/-- The helper `dropCR` of `bufio`: one trailing carriage return removed. -/
def dropCR (l : Str) : Str :=
  if l.getLast? = some '\r' then l.dropLast else l

/-- The tokens of `ScanLines`; `acc` is the current line, newest rune first.
A last line without newline is a token when it is not empty. -/
def scanLinesGo : Str → Str → List Str
  | acc, [] => if acc = [] then [] else [dropCR acc.reverse]
  | acc, c :: cs =>
    if c = '\n' then dropCR acc.reverse :: scanLinesGo [] cs
    else scanLinesGo (c :: acc) cs

/-- The lines the loop `for scanner.Scan()` sees. -/
def scanLines (data : Str) : List Str := scanLinesGo [] data

/-- The buffer built at lines 163-166: every line followed by a newline. -/
def buildBuffer (lines : List Str) : Str :=
  (lines.map (fun l => l ++ ['\n'])).flatten

/-- The content handed to the expression for the bytes of one read. -/
def readContent (data : Str) : Str := buildBuffer (scanLines data)

/-- A well-formed block: `&[(date time)`, newline, payload, newline, `&]`. -/
def blockText (date time payload : Str) : Str :=
  ['&', '[', '('] ++ date ++ [' '] ++ time ++ [')', '\n'] ++ payload ++ ['\n', '&', ']']

/-! ## The sheet "Mark Data"

The spreadsheet library is used through `SetCellValue`, `GetRows` and
`SaveAs` only. The sheet is the list of the cell values set, newest first;
a cell is addressed by its column (1 for `A`) and its row (`"A%d"`). The
calls are taken to succeed, as the code ignores their results.

The model keeps a value as it was set. The library does so for short plain
text only: it cuts a value at 32767 characters, reads an escape `_xHHHH_`
back as the rune it names and does not give back a control character. No
statement of this file about rows read back goes beyond short plain text. -/

/-- The cells of the sheet, newest value first. -/
abbrev Sheet := List ((Nat × Nat) × Str)

/-- The call `excel.SetCellValue("Mark Data", cell, value)`, for a value of
short plain text (see above). -/
def setCellValue (sh : Sheet) (col row : Nat) (v : Str) : Sheet :=
  ((col, row), v) :: sh

/-- The value of a cell; a cell never set is blank. -/
def getCell (sh : Sheet) (col row : Nat) : Str :=
  (sh.lookup (col, row)).getD []

/-- The last row holding a non-blank cell (0 when there is none). -/
def lastRow (sh : Sheet) : Nat :=
  (sh.map (fun e => if getCell sh e.1.1 e.1.2 = [] then 0 else e.1.2)).foldr max 0

/-- The last column of row `r` holding a non-blank cell (0 when none). -/
def lastCol (sh : Sheet) (r : Nat) : Nat :=
  (sh.map (fun e => if e.1.2 = r ∧ getCell sh e.1.1 r ≠ [] then e.1.1 else 0)).foldr max 0

/-- One row as `GetRows` gives it: the cells from column `A` to the last
non-blank cell of the row. -/
def getRow (sh : Sheet) (r : Nat) : List Str :=
  (List.range (lastCol sh r)).map (fun j => getCell sh (j + 1) r)

/-- The call `excel.GetRows("Mark Data")`, after the contract the library
documents for it ("GetRows fetched the rows with value or formula cells, the
continually blank cells in the tail of each row will be skipped, so the
length of each row may be inconsistent"): the rows up to the last one with a
value, and in each row the cells up to its last value. That rows differ in
length is what the test `len(rows[i]) >= 3` of line 94 is there for. -/
def getRows (sh : Sheet) : List (List Str) :=
  (List.range (lastRow sh)).map (fun i => getRow sh (i + 1))

/-! ## The state of `main` and its start (lines 43-120) -/

/-- The variables of `main` that live across iterations. -/
structure State where
  excel : Sheet
  rowCount : Nat
  existingRecords : List Str
  lastPos : Nat

/-- The key `fmt.Sprintf("%s|%s|%s", a, b, c)`. -/
def keyOf (a b c : Str) : Str := a ++ ['|'] ++ b ++ ['|'] ++ c

/-- The key of a record (line 192). -/
def recordKey (r : MarkRecord) : Str := keyOf r.Date r.Time r.Data

/-- The body of the loop of lines 93-99 for one row. -/
def seedRow (m : List Str) (row : List Str) : List Str :=
  match row with
  | a :: b :: c :: _ => m.insert (keyOf a b c)
  | _ => m

/-- The loop of lines 93-99: the keys of the rows after the first one. -/
def seed (rows : List (List Str)) : List Str :=
  (rows.drop 1).foldl seedRow []

/-- What `os.Stat` and `excelize.OpenFile` find at the output path. -/
inductive OutputFile where
  | absent
  | unreadable
  | present (sh : Sheet)

/-- The sheet of the branch of lines 51-72 (the style has no content). -/
def newSheet : Sheet :=
  setCellValue (setCellValue (setCellValue [] 1 1 "Mark Date".toList)
    2 1 "Mark Time".toList) 3 1 "Mark Data".toList

/-- Lines 43-120: the state before the first iteration, or `none` when the
program exits because the file cannot be opened or read. The checks of the
flags and the creation of the output directory are left out. -/
def startup : OutputFile → Option State
  | OutputFile.absent =>
    some { excel := newSheet, rowCount := 2, existingRecords := [], lastPos := 0 }
  | OutputFile.unreadable => none
  | OutputFile.present sh =>
    let rows := getRows sh
    some { excel := sh, rowCount := rows.length + 1, existingRecords := seed rows,
           lastPos := 0 }

/-! ## One iteration of the loop (lines 125-237) -/

/-- What the environment answers during one iteration. `readAt p` is the text
the scanner gets after `Seek(p)`; `scanErr` is `scanner.Err() != nil` (a
read error or a line too long for the scanner). -/
structure PollEnv where
  openErr : Bool
  statErr : Bool
  size : Nat
  seekErr : Bool
  readAt : Nat → Str
  scanErr : Bool
  saveErr : Bool

/-- What one iteration prints, and how long it sleeps. -/
inductive Event where
  | errOpen
  | errStat
  | errSeek
  | errRead
  | added (r : MarkRecord)
  | duplicate (r : MarkRecord)
  | saved (n : Nat)
  | errSave
  | noNew
  | detected (r : MarkRecord)
  | sleep (ms : Nat)
deriving DecidableEq, Repr

/-- Lines 197-206: the three cells of row `rowCount`, the key, the counter. -/
def appendRecord (st : State) (r : MarkRecord) : State :=
  { st with
    excel := setCellValue (setCellValue (setCellValue st.excel 1 st.rowCount r.Date)
      2 st.rowCount r.Time) 3 st.rowCount r.Data
    existingRecords := st.existingRecords.insert (recordKey r)
    rowCount := st.rowCount + 1 }

/-- The state of the loop of line 185: the variables of `main`,
`newRecordsCount` and what was printed. -/
structure Batch where
  st : State
  newRecordsCount : Nat
  log : List Event

/-- The body of the loop of lines 185-221 for one match. -/
def processMatch (b : Batch) (m : List Str) : Batch :=
  match recordOfMatch m with
  | none => b
  | some r =>
    if recordKey r ∈ b.st.existingRecords then
      { b with log := b.log ++ [Event.duplicate r] }
    else
      { st := appendRecord b.st r, newRecordsCount := b.newRecordsCount + 1,
        log := b.log ++ [Event.added r] }

/-- The loop of lines 185-221. -/
def processMatches (st : State) (ms : List (List Str)) : Batch :=
  ms.foldl processMatch { st := st, newRecordsCount := 0, log := [] }

/-- Lines 224-232: the sheet is saved when a record was added. -/
def saveEvents (env : PollEnv) (n : Nat) : List Event :=
  if n > 0 then (if env.saveErr then [Event.errSave] else [Event.saved n])
  else [Event.noNew]

/-- One iteration of `for { ... }`: the next state and what was printed. -/
def pollStep (env : PollEnv) (st : State) : State × List Event :=
  if env.openErr then (st, [Event.errOpen, Event.sleep 1000])
  else if env.statErr then (st, [Event.errStat, Event.sleep 1000])
  else if env.size ≤ st.lastPos then (st, [Event.sleep 500])
  else if env.seekErr then (st, [Event.errSeek, Event.sleep 1000])
  else if env.scanErr then (st, [Event.errRead, Event.sleep 1000])
  else
    let content := readContent (env.readAt st.lastPos)
    let st1 := { st with lastPos := env.size }
    let ms := findAllStringSubmatch content
    if ms.length > 0 then
      let b := processMatches st1 ms
      (b.st, b.log ++ saveEvents env b.newRecordsCount ++ [Event.sleep 500])
    else (st1, [Event.sleep 500])

/-- One iteration of the loop of `main1` (`main-c-v1.go`, lines 42-115): the
same reader, and every match printed; the cursor is its only variable. -/
def pollStep1 (env : PollEnv) (lastPos : Nat) : Nat × List Event :=
  if env.openErr then (lastPos, [Event.errOpen, Event.sleep 1000])
  else if env.statErr then (lastPos, [Event.errStat, Event.sleep 1000])
  else if env.size ≤ lastPos then (lastPos, [Event.sleep 500])
  else if env.seekErr then (lastPos, [Event.errSeek, Event.sleep 1000])
  else if env.scanErr then (lastPos, [Event.errRead, Event.sleep 1000])
  else
    let content := readContent (env.readAt lastPos)
    (env.size, (extract content).map Event.detected ++ [Event.sleep 500])

/-- The cursor of `main1` after the iterations, from the cursor `pos`. -/
def run1 : List PollEnv → Nat → Nat
  | [], pos => pos
  | env :: envs, pos => run1 envs (pollStep1 env pos).1

/-- The loop over the answers of the environment, one per iteration. The
body has no `break` and no `return`: every iteration gives a next state. -/
def run : List PollEnv → State → State × List Event
  | [], st => (st, [])
  | env :: envs, st =>
    let r := pollStep env st
    let r2 := run envs r.1
    (r2.1, r.2 ++ r2.2)

/-- A file of one-byte runes with the given content, read without error. -/
def asciiFile (content : Str) : PollEnv :=
  { openErr := false, statErr := false, size := content.length, seekErr := false,
    readAt := fun p => content.drop p, scanErr := false, saveErr := false }

/-- The data rows of the sheet as records: rows 2 to `rowCount - 1`. -/
def dataRows (st : State) : List MarkRecord :=
  (List.range (st.rowCount - 2)).map (fun i =>
    ⟨getCell st.excel 1 (i + 2), getCell st.excel 2 (i + 2), getCell st.excel 3 (i + 2)⟩)

/-- The number of UTF-8 bytes of a text. -/
def byteLen (s : Str) : Nat := (s.map Char.utf8Size).sum

/-- The records one iteration extracts when the cursor is `pos`, and the
cursor after it: none when the iteration ends before the buffer is built. -/
def pollRecords (env : PollEnv) (pos : Nat) : List MarkRecord × Nat :=
  if env.openErr || env.statErr || decide (env.size ≤ pos) || env.seekErr || env.scanErr
  then ([], pos)
  else (extract (readContent (env.readAt pos)), env.size)

/-- The records extracted over the iterations, in the order of discovery. -/
def extractedBy : List PollEnv → Nat → List MarkRecord
  | [], _ => []
  | env :: envs, pos =>
    (pollRecords env pos).1 ++ extractedBy envs (pollRecords env pos).2

/-- The first occurrence of every record, by its three fields. -/
def firstOccurrences (rs : List MarkRecord) : List MarkRecord :=
  rs.foldl (fun acc r => if r ∈ acc then acc else acc ++ [r]) []

/-- The first occurrence of every record, by its key. -/
def firstByKey (rs : List MarkRecord) : List MarkRecord :=
  rs.foldl (fun acc r => if recordKey r ∈ acc.map recordKey then acc else acc ++ [r]) []

/-- The state after the start with no output file. -/
def freshState : State :=
  { excel := newSheet, rowCount := 2, existingRecords := [], lastPos := 0 }

/-! ### Files used as concrete inputs -/

/-- A file of 17 bytes with one block. -/
def fileOld : Str := "&[(d1 t1)\nold\n&]\n".toList

/-- The file after it was rewritten with a shorter block (15 bytes). -/
def fileTruncated : Str := "&[(d2 t2)\ny\n&]\n".toList

/-- The rewritten file after one more block was appended (30 bytes). -/
def fileRegrown : Str := "&[(d2 t2)\ny\n&]\n&[(d3 t3)\nz\n&]\n".toList

/-- A file with one block whose date holds the separator of the key. -/
def fileBarInDate : Str := "&[(a|b c)\nd\n&]\n".toList

/-- The same file after a block with the separator in its time was appended. -/
def fileBarInTime : Str := "&[(a|b c)\nd\n&]\n&[(a b|c)\nd\n&]\n".toList

/-- A block of the input: its date, its time and its payload line. -/
structure Block where
  date : Str
  time : Str
  payload : Str
deriving DecidableEq, Repr

/-- The text of a block. -/
def Block.text (b : Block) : Str := blockText b.date b.time b.payload

/-- The record of a block: the payload trimmed. -/
def Block.record (b : Block) : MarkRecord := ⟨b.date, b.time, trimSpace b.payload⟩

/-- What "the payload with leading and trailing white space trimmed" says,
stated on the text itself and without `trimSpace`: the payload is `core`
between two runs of white space, and `core` neither starts nor ends with
white space. -/
def IsTrimOf (core payload : Str) : Prop :=
  ∃ lead trail, payload = lead ++ core ++ trail ∧
    (∀ c ∈ lead, isSpace c = true) ∧ (∀ c ∈ trail, isSpace c = true) ∧
    (∀ c, core.head? = some c → isSpace c = false) ∧
    (∀ c, core.getLast? = some c → isSpace c = false)

/-- The buffer of the blocks of 2024-01-01 12:00:00 with payload `Temp=20C`,
once plain and once with white space around the payload. -/
def blocksTemp : List Block :=
  [⟨"2024-01-01".toList, "12:00:00".toList, "Temp=20C".toList⟩,
   ⟨"2024-01-01".toList, "12:00:00".toList, " \tTemp=20C \r ".toList⟩]

/-- A well-formed block: no white space in the date and in the time, no
newline in the payload. -/
def Block.wellFormed (b : Block) : Prop :=
  (∀ c ∈ b.date, isSpace c = false) ∧ (∀ c ∈ b.time, isSpace c = false) ∧
    '\n' ∉ b.payload

/-- The body of the loop of line 185 on the variables of `main` alone: a
record whose key is in the map changes nothing, another one is appended. -/
def acceptRecord (st : State) (r : MarkRecord) : State :=
  if recordKey r ∈ st.existingRecords then st else appendRecord st r

/-- The cursor after the iterations, from the cursor `pos`. -/
def cursorAfter : List PollEnv → Nat → Nat
  | [], pos => pos
  | env :: envs, pos => cursorAfter envs (pollRecords env pos).2

/-- The step of `firstByKey`. -/
def keepFirstByKey (acc : List MarkRecord) (r : MarkRecord) : List MarkRecord :=
  if recordKey r ∈ acc.map recordKey then acc else acc ++ [r]

/-- The sheet, the counter and the map hold the header and the records
`acc`, one per row from row 2 on, and nothing else. -/
def Tracks (st : State) (acc : List MarkRecord) : Prop :=
  st.rowCount = acc.length + 2 ∧
  (∀ e ∈ st.excel, 1 ≤ e.1.1 ∧ e.1.1 ≤ 3 ∧ 1 ≤ e.1.2 ∧ e.1.2 < st.rowCount) ∧
  (getCell st.excel 1 1 = "Mark Date".toList ∧ getCell st.excel 2 1 = "Mark Time".toList ∧
    getCell st.excel 3 1 = "Mark Data".toList) ∧
  dataRows st = acc ∧
  (∀ k, k ∈ st.existingRecords ↔ k ∈ acc.map recordKey)

/-- A file with one block whose payload is a single blank. -/
def fileBlankPayload : Str := "&[(d t)\n \n&]\n".toList

/-! ### The lines of a buffer (used to reason on where a match can lie) -/

/-- The text cut at its newlines. -/
def linesOf : Str → List Str
  | [] => [[]]
  | c :: cs =>
    if c = '\n' then [] :: linesOf cs
    else
      match linesOf cs with
      | l :: ls => (c :: l) :: ls
      | [] => [[c]]

/-- A line that ends with `&[(g1 g2)` for some `g1`, `g2`. -/
def endsWithHeader (x : Str) : Prop :=
  ∃ a g1 g2, x = a ++ (['&', '[', '('] ++ (g1 ++ (' ' :: (g2 ++ [')']))))

/-- A line that starts with `&]`. -/
def startsWithClose (y : Str) : Prop := ∃ l, y = '&' :: ']' :: l

/-- Three lines in a row of which the first ends with a header and the third
starts with the closing marker. -/
def hasWindow : List Str → Prop
  | x :: g :: y :: ls => (endsWithHeader x ∧ startsWithClose y) ∨ hasWindow (g :: y :: ls)
  | _ => False

/-- The opening marker `&[(` occurs in the text. -/
def containsMarker (s : Str) : Prop := ∃ a c, s = a ++ (['&', '[', '('] ++ c)

/-- The header line of a block: `&[(date time)`. -/
def headerLine (b : Block) : Str :=
  ['&', '[', '('] ++ (b.date ++ (' ' :: (b.time ++ [')'])))

/-- A block whose date holds the opening marker. -/
def blockMarkerInDate : Block := ⟨"&[(x".toList, "t".toList, "y".toList⟩

/-- A plain well-formed block. -/
def blockPlain : Block := ⟨"d".toList, "t".toList, "x".toList⟩

/-- The block `blockPlain` up to the end of its payload. -/
def cutBefore : Str := "&[(d t)\nx".toList

/-- The rest of the block `blockPlain`. -/
def cutAfter : Str := "\n&]".toList

/-! ## Lemmas on the loop -/

theorem processMatch_lastPos (b : Batch) (m : List Str) :
    (processMatch b m).st.lastPos = b.st.lastPos := by
  unfold processMatch
  split
  · rfl
  · split <;> rfl

theorem foldl_processMatch_lastPos (ms : List (List Str)) (b : Batch) :
    (ms.foldl processMatch b).st.lastPos = b.st.lastPos := by
  induction ms generalizing b with
  | nil => rfl
  | cons m ms ih => rw [List.foldl_cons, ih, processMatch_lastPos]

theorem processMatches_lastPos (st : State) (ms : List (List Str)) :
    (processMatches st ms).st.lastPos = st.lastPos :=
  foldl_processMatch_lastPos ms _

/-- The cursor after an iteration without error is the larger of the cursor
before and the size seen. -/
theorem pollStep_lastPos_ok (env : PollEnv) (st : State)
    (h1 : env.openErr = false) (h2 : env.statErr = false)
    (h3 : env.seekErr = false) (h4 : env.scanErr = false) :
    (pollStep env st).1.lastPos = max st.lastPos env.size := by
  unfold pollStep
  simp only [h1, h2, h3, h4, Bool.false_eq_true, if_false]
  by_cases hs : env.size ≤ st.lastPos
  · simp [hs]
  · simp only [hs, if_false]
    have hlt : st.lastPos ≤ env.size := by omega
    split
    · simp [processMatches_lastPos, hlt]
    · simp [hlt]

theorem pollStep_lastPos_mono (env : PollEnv) (st : State) :
    st.lastPos ≤ (pollStep env st).1.lastPos := by
  unfold pollStep
  split
  · exact le_rfl
  · split
    · exact le_rfl
    · split
      · exact le_rfl
      · split
        · exact le_rfl
        · split
          · exact le_rfl
          · rename_i hs _ _
            have hlt : st.lastPos ≤ env.size := by omega
            simp only []
            split
            · simpa [processMatches_lastPos] using hlt
            · simpa using hlt

/-- The cursor of `main1` moves as the cursor of `main` does. -/
theorem pollStep1_cursor (env : PollEnv) (st : State) :
    (pollStep1 env st.lastPos).1 = (pollStep env st).1.lastPos := by
  unfold pollStep1 pollStep
  split
  · rfl
  · split
    · rfl
    · split
      · rfl
      · split
        · rfl
        · split
          · rfl
          · simp only []
            split
            · rw [processMatches_lastPos]
            · rfl

theorem run1_cursor (envs : List PollEnv) (st : State) :
    run1 envs st.lastPos = (run envs st).1.lastPos := by
  induction envs generalizing st with
  | nil => rfl
  | cons env envs ih =>
    simp only [run1, run]
    rw [pollStep1_cursor, ih]

theorem run_append (xs ys : List PollEnv) (st : State) :
    run (xs ++ ys) st = ((run ys (run xs st).1).1, (run xs st).2 ++ (run ys (run xs st).1).2) := by
  induction xs generalizing st with
  | nil => simp [run]
  | cons x xs ih => simp [run, ih, List.append_assoc]

/-- An iteration in which an error flag is set, or the size is not above the
cursor, gives back the state it was given. -/
theorem pollStep_state_of_flag (env : PollEnv) (st : State)
    (h : env.openErr = true ∨ env.statErr = true ∨ env.size ≤ st.lastPos ∨
      env.seekErr = true ∨ env.scanErr = true) :
    (pollStep env st).1 = st ∧
      ∀ ev ∈ (pollStep env st).2, ev = Event.errOpen ∨ ev = Event.errStat ∨
        ev = Event.errSeek ∨ ev = Event.errRead ∨ ev = Event.sleep 1000 ∨
        ev = Event.sleep 500 := by
  unfold pollStep
  split
  · simp
  · split
    · simp
    · split
      · simp
      · split
        · simp
        · split
          · simp
          · rename_i a b c d e
            rcases h with h | h | h | h | h
            · exact absurd h a
            · exact absurd h b
            · exact absurd h c
            · exact absurd h d
            · exact absurd h e

theorem run_cursor_last (pre : List PollEnv) (e : PollEnv) (st : State)
    (hok : ∀ x ∈ pre ++ [e], x.openErr = false ∧ x.statErr = false ∧
      x.seekErr = false ∧ x.scanErr = false)
    (hmono : ((pre ++ [e]).map PollEnv.size).Sorted (· ≤ ·))
    (hst : ∀ x ∈ pre ++ [e], st.lastPos ≤ x.size) :
    (run (pre ++ [e]) st).1.lastPos = e.size := by
  induction pre generalizing st with
  | nil =>
    have h := hok e (by simp)
    have hle := hst e (by simp)
    simp only [List.nil_append, run]
    rw [pollStep_lastPos_ok e st h.1 h.2.1 h.2.2.1 h.2.2.2]
    exact max_eq_right hle
  | cons a pre ih =>
    have h := hok a (by simp)
    have hle := hst a (by simp)
    simp only [List.cons_append, run]
    apply ih
    · intro x hx
      exact hok x (by simp only [List.cons_append, List.mem_cons]; exact Or.inr hx)
    · simp only [List.cons_append, List.map_cons, List.sorted_cons] at hmono
      exact hmono.2
    · intro x hx
      rw [pollStep_lastPos_ok a st h.1 h.2.1 h.2.2.1 h.2.2.2, max_eq_right hle]
      simp only [List.cons_append, List.map_cons, List.sorted_cons] at hmono
      exact hmono.1 x.size (List.mem_map_of_mem _ hx)

/-! ## The claims on the cursor and on errors -/

/-- C5: over polls without error on a file whose size never decreases, from
cursor 0, the cursor after each poll is the size that poll saw (in `main`
and in `main1`); a poll that sees a size not above the cursor changes nothing
and prints no error; and no poll lowers the cursor. -/
theorem cursor_equals_size_seen (envs : List PollEnv) (st : State)
    (hst : st.lastPos = 0)
    (hok : ∀ x ∈ envs, x.openErr = false ∧ x.statErr = false ∧
      x.seekErr = false ∧ x.scanErr = false)
    (hmono : (envs.map PollEnv.size).Sorted (· ≤ ·)) :
    (∀ pre e post, envs = pre ++ e :: post →
        (run (pre ++ [e]) st).1.lastPos = e.size ∧ run1 (pre ++ [e]) 0 = e.size) ∧
    (∀ e ∈ envs, ∀ s : State, e.size ≤ s.lastPos →
        pollStep e s = (s, [Event.sleep 500]) ∧
        pollStep1 e s.lastPos = (s.lastPos, [Event.sleep 500])) ∧
    (∀ pre e post, envs = pre ++ e :: post →
        (run pre st).1.lastPos ≤ (run (pre ++ [e]) st).1.lastPos) := by
  refine ⟨?_, ?_, ?_⟩
  · intro pre e post henv
    rw [← hst, run1_cursor, and_self]
    have hsub : ∀ x ∈ pre ++ [e], x ∈ envs := by
      intro x hx
      rw [henv]
      simp only [List.mem_append, List.mem_singleton, List.mem_cons] at hx ⊢
      rcases hx with hx | hx
      · exact Or.inl hx
      · rcases hx with hx | hx
        · exact Or.inr (Or.inl hx)
        · simp at hx
    apply run_cursor_last
    · intro x hx
      exact hok x (hsub x hx)
    · rw [henv] at hmono
      have : pre ++ e :: post = (pre ++ [e]) ++ post := by simp
      rw [this, List.map_append] at hmono
      exact (List.pairwise_append.1 hmono).1
    · intro x _
      rw [hst]
      exact Nat.zero_le _
  · intro e he s hs
    have h := hok e he
    unfold pollStep pollStep1
    simp [h.1, h.2.1, hs]
  · intro pre e post _
    rw [run_append]
    simp only [run]
    exact pollStep_lastPos_mono e _

/-- C5, at three polls of a file growing from 15 to 30 bytes: the cursor is
15 after the first, 15 after the second (no new data), 30 after the third. -/
theorem cursor_equals_size_seen_witness :
    (∀ pre e post,
        [asciiFile "&[(d1 t1)\nx\n&]\n".toList, asciiFile "&[(d1 t1)\nx\n&]\n".toList,
          asciiFile "&[(d1 t1)\nx\n&]\n&[(d2 t2)\ny\n&]\n".toList] = pre ++ e :: post →
        (run (pre ++ [e]) ⟨newSheet, 2, [], 0⟩).1.lastPos = e.size ∧
          run1 (pre ++ [e]) 0 = e.size) ∧
    (∀ e ∈ [asciiFile "&[(d1 t1)\nx\n&]\n".toList, asciiFile "&[(d1 t1)\nx\n&]\n".toList,
          asciiFile "&[(d1 t1)\nx\n&]\n&[(d2 t2)\ny\n&]\n".toList],
        ∀ s : State, e.size ≤ s.lastPos →
          pollStep e s = (s, [Event.sleep 500]) ∧
          pollStep1 e s.lastPos = (s.lastPos, [Event.sleep 500])) ∧
    (∀ pre e post,
        [asciiFile "&[(d1 t1)\nx\n&]\n".toList, asciiFile "&[(d1 t1)\nx\n&]\n".toList,
          asciiFile "&[(d1 t1)\nx\n&]\n&[(d2 t2)\ny\n&]\n".toList] = pre ++ e :: post →
        (run pre ⟨newSheet, 2, [], 0⟩).1.lastPos ≤
          (run (pre ++ [e]) ⟨newSheet, 2, [], 0⟩).1.lastPos) :=
  cursor_equals_size_seen _ ⟨newSheet, 2, [], 0⟩ rfl
    (by intro x hx; simp only [List.mem_cons, List.mem_singleton, List.not_mem_nil, or_false] at hx
        rcases hx with rfl | rfl | rfl <;> simp [asciiFile])
    (by simp [asciiFile])

/-- C6: an iteration in which opening, stat-ing, seeking or reading fails
ends with the cursor (of `main` and of `main1`), the dedup map, the row
counter and the sheet as they were, prints no record, and the loop goes on
with the next iteration from that same state. -/
theorem error_iteration_keeps_state (env : PollEnv) (st : State)
    (h : env.openErr = true ∨ env.statErr = true ∨ env.seekErr = true ∨
      env.scanErr = true) :
    (pollStep env st).1.lastPos = st.lastPos ∧
    (pollStep1 env st.lastPos).1 = st.lastPos ∧
    (pollStep env st).1.existingRecords = st.existingRecords ∧
    (pollStep env st).1.rowCount = st.rowCount ∧
    (pollStep env st).1.excel = st.excel ∧
    (∀ r, Event.added r ∉ (pollStep env st).2 ∧ Event.duplicate r ∉ (pollStep env st).2) ∧
    (∀ envs, run (env :: envs) st =
        ((run envs st).1, (pollStep env st).2 ++ (run envs st).2) ∧
      run1 (env :: envs) st.lastPos = run1 envs st.lastPos) := by
  have hflag : env.openErr = true ∨ env.statErr = true ∨ env.size ≤ st.lastPos ∨
      env.seekErr = true ∨ env.scanErr = true := by
    rcases h with h | h | h | h
    · exact Or.inl h
    · exact Or.inr (Or.inl h)
    · exact Or.inr (Or.inr (Or.inr (Or.inl h)))
    · exact Or.inr (Or.inr (Or.inr (Or.inr h)))
  obtain ⟨hst, hlog⟩ := pollStep_state_of_flag env st hflag
  have h1 : (pollStep1 env st.lastPos).1 = st.lastPos := by rw [pollStep1_cursor, hst]
  refine ⟨by rw [hst], h1, by rw [hst], by rw [hst], by rw [hst], ?_, ?_⟩
  · intro r
    constructor
    · intro hm
      rcases hlog _ hm with h | h | h | h | h | h <;> cases h
    · intro hm
      rcases hlog _ hm with h | h | h | h | h | h <;> cases h
  · intro envs
    simp only [run, run1, hst, h1, and_self]

/-- C6, at a poll of a file holding a block whose read fails, from the state
after the start: nothing changes and the next poll is run. -/
theorem error_iteration_keeps_state_witness :
    (pollStep { asciiFile "&[(d t)\nx\n&]\n".toList with scanErr := true }
        ⟨newSheet, 2, [], 0⟩).1.lastPos = 0 ∧
    (pollStep1 { asciiFile "&[(d t)\nx\n&]\n".toList with scanErr := true } 0).1 = 0 ∧
    (pollStep { asciiFile "&[(d t)\nx\n&]\n".toList with scanErr := true }
        ⟨newSheet, 2, [], 0⟩).1.existingRecords = [] ∧
    (pollStep { asciiFile "&[(d t)\nx\n&]\n".toList with scanErr := true }
        ⟨newSheet, 2, [], 0⟩).1.rowCount = 2 ∧
    (pollStep { asciiFile "&[(d t)\nx\n&]\n".toList with scanErr := true }
        ⟨newSheet, 2, [], 0⟩).1.excel = newSheet ∧
    (∀ r, Event.added r ∉ (pollStep { asciiFile "&[(d t)\nx\n&]\n".toList with
          scanErr := true } ⟨newSheet, 2, [], 0⟩).2 ∧
        Event.duplicate r ∉ (pollStep { asciiFile "&[(d t)\nx\n&]\n".toList with
          scanErr := true } ⟨newSheet, 2, [], 0⟩).2) ∧
    (∀ envs, run ({ asciiFile "&[(d t)\nx\n&]\n".toList with scanErr := true } :: envs)
        ⟨newSheet, 2, [], 0⟩ =
      ((run envs ⟨newSheet, 2, [], 0⟩).1,
        (pollStep { asciiFile "&[(d t)\nx\n&]\n".toList with scanErr := true }
          ⟨newSheet, 2, [], 0⟩).2 ++ (run envs ⟨newSheet, 2, [], 0⟩).2) ∧
      run1 ({ asciiFile "&[(d t)\nx\n&]\n".toList with scanErr := true } :: envs) 0
        = run1 envs 0) :=
  error_iteration_keeps_state _ _ (Or.inr (Or.inr (Or.inr rfl)))

/-- C4, as stated, fails: after a poll of the 17-byte file the cursor is 17;
the file is rewritten with 15 bytes (size below the cursor) and the poll
keeps the cursor at 17 instead of 0; when the file has grown to 30 bytes the
read starts at byte 17, in the middle of the new content, and neither of its
two records is extracted: the sheet keeps its one old data row. -/
theorem truncation_not_recovered :
    (asciiFile fileTruncated).size < (run [asciiFile fileOld] freshState).1.lastPos ∧
    (pollStep (asciiFile fileTruncated) (run [asciiFile fileOld] freshState).1).1.lastPos = 17 ∧
    (pollStep (asciiFile fileTruncated) (run [asciiFile fileOld] freshState).1).2
      = [Event.sleep 500] ∧
    extract (readContent fileRegrown)
      = [⟨"d2".toList, "t2".toList, "y".toList⟩, ⟨"d3".toList, "t3".toList, "z".toList⟩] ∧
    extractedBy [asciiFile fileOld, asciiFile fileTruncated, asciiFile fileRegrown] 0
      = [⟨"d1".toList, "t1".toList, "old".toList⟩] ∧
    dataRows (run [asciiFile fileOld, asciiFile fileTruncated, asciiFile fileRegrown]
      freshState).1 = [⟨"d1".toList, "t1".toList, "old".toList⟩] := by
  decide

/-- C4, amended: a poll that sees a size strictly below the cursor does not
reset the cursor; it is handled as "no new data": the state (cursor
included, in `main` and in `main1`) is unchanged and no record is extracted. -/
theorem shrunk_file_is_no_new_data (env : PollEnv) (st : State)
    (h : env.size < st.lastPos) :
    (pollStep env st).1 = st ∧
    (pollStep1 env st.lastPos).1 = st.lastPos ∧
    (∀ r, Event.added r ∉ (pollStep env st).2 ∧ Event.duplicate r ∉ (pollStep env st).2) ∧
    (pollRecords env st.lastPos) = ([], st.lastPos) := by
  obtain ⟨hst, hlog⟩ := pollStep_state_of_flag env st
    (Or.inr (Or.inr (Or.inl (Nat.le_of_lt h))))
  refine ⟨hst, by rw [pollStep1_cursor, hst], ?_, ?_⟩
  · intro r
    constructor
    · intro hm
      rcases hlog _ hm with h | h | h | h | h | h <;> cases h
    · intro hm
      rcases hlog _ hm with h | h | h | h | h | h <;> cases h
  · unfold pollRecords
    simp [Nat.le_of_lt h]

/-- C4, amended, at the rewritten file: 15 bytes against a cursor of 17. -/
theorem shrunk_file_is_no_new_data_witness :
    (pollStep (asciiFile fileTruncated) (run [asciiFile fileOld] freshState).1).1
      = (run [asciiFile fileOld] freshState).1 ∧
    (pollStep1 (asciiFile fileTruncated) (run [asciiFile fileOld] freshState).1.lastPos).1
      = (run [asciiFile fileOld] freshState).1.lastPos ∧
    (∀ r, Event.added r ∉
        (pollStep (asciiFile fileTruncated) (run [asciiFile fileOld] freshState).1).2 ∧
      Event.duplicate r ∉
        (pollStep (asciiFile fileTruncated) (run [asciiFile fileOld] freshState).1).2) ∧
    (pollRecords (asciiFile fileTruncated) (run [asciiFile fileOld] freshState).1.lastPos)
      = ([], (run [asciiFile fileOld] freshState).1.lastPos) :=
  shrunk_file_is_no_new_data _ _ (by decide)

/-! ## The claims on the sheet -/

/-- C8, as stated, fails: the header cells of a newly created sheet are not
"Date", "Time" and "Data". -/
theorem new_sheet_header_not_short :
    (startup OutputFile.absent).map (fun st => getCell st.excel 1 1) ≠ some "Date".toList ∧
    (startup OutputFile.absent).map (fun st => getCell st.excel 2 1) ≠ some "Time".toList ∧
    (startup OutputFile.absent).map (fun st => getCell st.excel 3 1) ≠ some "Data".toList := by
  decide

/-- C8, amended: with no file at the output path, row 1 of the new sheet is
the header "Mark Date", "Mark Time", "Mark Data" in columns A, B and C, it is
the only row, and the next free row is 2. -/
theorem new_sheet_header :
    (startup OutputFile.absent).map (fun st => getCell st.excel 1 1)
      = some "Mark Date".toList ∧
    (startup OutputFile.absent).map (fun st => getCell st.excel 2 1)
      = some "Mark Time".toList ∧
    (startup OutputFile.absent).map (fun st => getCell st.excel 3 1)
      = some "Mark Data".toList ∧
    (startup OutputFile.absent).map (fun st => getRows st.excel)
      = some [["Mark Date".toList, "Mark Time".toList, "Mark Data".toList]] ∧
    (startup OutputFile.absent).map (fun st => st.rowCount) = some 2 := by
  decide

/-! ## The claims on the key -/

/-- C2: the extractor produces the records ("a|b", "c", "d") and
("a", "b|c", "d"); they differ and have the same key "a|b|c|d". -/
theorem key_shared_by_two_records :
    extract (blockText "a|b".toList "c".toList "d".toList)
      = [⟨"a|b".toList, "c".toList, "d".toList⟩] ∧
    extract (blockText "a".toList "b|c".toList "d".toList)
      = [⟨"a".toList, "b|c".toList, "d".toList⟩] ∧
    (⟨"a|b".toList, "c".toList, "d".toList⟩ : MarkRecord)
      ≠ ⟨"a".toList, "b|c".toList, "d".toList⟩ ∧
    recordKey ⟨"a|b".toList, "c".toList, "d".toList⟩
      = recordKey ⟨"a".toList, "b|c".toList, "d".toList⟩ := by
  decide

/-- C1: two polls extract ("a|b", "c", "d") and then ("a", "b|c", "d"), two
different records; the second is printed as a duplicate and the data rows of
the sheet are the first record only, not the two first occurrences. -/
theorem second_record_dropped_as_duplicate :
    extractedBy [asciiFile fileBarInDate, asciiFile fileBarInTime] 0
      = [⟨"a|b".toList, "c".toList, "d".toList⟩, ⟨"a".toList, "b|c".toList, "d".toList⟩] ∧
    firstOccurrences (extractedBy [asciiFile fileBarInDate, asciiFile fileBarInTime] 0)
      = [⟨"a|b".toList, "c".toList, "d".toList⟩, ⟨"a".toList, "b|c".toList, "d".toList⟩] ∧
    dataRows (run [asciiFile fileBarInDate, asciiFile fileBarInTime] freshState).1
      = [⟨"a|b".toList, "c".toList, "d".toList⟩] ∧
    (run [asciiFile fileBarInDate, asciiFile fileBarInTime] freshState).2
      = [Event.added ⟨"a|b".toList, "c".toList, "d".toList⟩, Event.saved 1, Event.sleep 500,
         Event.duplicate ⟨"a".toList, "b|c".toList, "d".toList⟩, Event.noNew,
         Event.sleep 500] := by
  decide

/-! ## The expression on a well-formed block -/

theorem stripLit_append (cs s : Str) : stripLit cs (cs ++ s) = some s := by
  induction cs with
  | nil => cases s <;> rfl
  | cons c cs ih => simp [stripLit, ih]

theorem stripLit_sound (cs s r : Str) (h : stripLit cs s = some r) : s = cs ++ r := by
  induction cs generalizing s with
  | nil =>
    cases s <;> simp [stripLit] at h <;> simp [h]
  | cons c cs ih =>
    cases s with
    | nil => simp [stripLit] at h
    | cons d s =>
      simp only [stripLit] at h
      split at h
      · rename_i hcd
        rw [hcd, ih s h]
        rfl
      · cases h

/-- The lazy capture takes `g` when `g` has no newline, the continuation
accepts what follows `g` and rejects what follows every shorter capture. -/
theorem lazyDots_capture (k : Str → Option (List Str × Str)) (g rest : Str)
    (gs : List Str) (r : Str)
    (hnl : '\n' ∉ g)
    (hfail : ∀ c t, (c :: t) <:+ g → k (c :: t ++ rest) = none)
    (hk : k rest = some (gs, r)) :
    lazyDots k (g ++ rest) = some (g :: gs, r) := by
  induction g with
  | nil =>
    cases rest with
    | nil => simp [lazyDots, hk]
    | cons c s => simp [lazyDots, hk]
  | cons c g ih =>
    have hc : c ≠ '\n' := fun h => hnl (by simp [h])
    have hg : '\n' ∉ g := fun h => hnl (List.mem_cons_of_mem _ h)
    have h1 : k (c :: (g ++ rest)) = none := hfail c g (List.suffix_refl _)
    have h2 := ih hg (fun d t ht => hfail d t (ht.trans (List.suffix_cons c g)))
    show lazyDots k (c :: (g ++ rest)) = some ((c :: g) :: gs, r)
    rw [lazyDots, h1]
    simp [hc, h2, consCapture]

theorem mem_of_suffix_cons {c : Char} {t g : Str} (h : (c :: t) <:+ g) : c ∈ g :=
  h.subset (List.mem_cons_self c t)

theorem newline_isSpace : isSpace '\n' = true := by decide

theorem blank_isSpace : isSpace ' ' = true := by decide

theorem not_mem_of_no_space (g : Str) (c : Char) (hc : isSpace c = true)
    (h : ∀ x ∈ g, isSpace x = false) : c ∉ g := by
  intro hm
  have := h c hm
  rw [hc] at this
  cases this

/-- The expression matches a block at the start of any text, with the three
fields of the block as captures, whatever follows the block. -/
theorem matchItems_block (date time payload rest : Str)
    (hd1 : ' ' ∉ date) (hd2 : '\n' ∉ date)
    (ht : '\n' ∉ time) (hp : '\n' ∉ payload) :
    matchItems markRegex (blockText date time payload ++ rest)
      = some ([date, time, payload], rest) := by
  have e : blockText date time payload ++ rest
      = ['&', '[', '('] ++ (date ++ ([' '] ++ (time ++ ([')', '\n'] ++
          (payload ++ (['\n', '&', ']'] ++ rest)))))) := by
    simp [blockText, List.append_assoc]
  rw [e]
  simp only [markRegex, matchItems]
  rw [stripLit_append]
  simp only [Option.bind]
  -- the third capture
  have h3 : ∀ s, lazyDots (fun s => (stripLit ['\n', '&', ']'] s).bind (fun s => some ([], s)))
      (payload ++ (['\n', '&', ']'] ++ s)) = some ([payload], s) := by
    intro s
    apply lazyDots_capture _ _ _ _ _ hp
    · intro c t hct
      have hc : c ≠ '\n' := fun h => hp (h ▸ mem_of_suffix_cons hct)
      simp [stripLit, Ne.symm hc]
    · rw [stripLit_append]
      rfl
  -- the second capture
  have h2 : ∀ s, lazyDots (fun s => (stripLit [')', '\n'] s).bind
      (lazyDots (fun s => (stripLit ['\n', '&', ']'] s).bind (fun s => some ([], s)))))
      (time ++ ([')', '\n'] ++ (payload ++ (['\n', '&', ']'] ++ s))))
        = some ([time, payload], s) := by
    intro s
    apply lazyDots_capture _ _ _ _ _ ht
    · intro c t hct
      have hc : c ≠ '\n' := fun h => ht (h ▸ mem_of_suffix_cons hct)
      by_cases hcp : c = ')'
      · subst hcp
        cases t with
        | nil => simp [stripLit]
        | cons d t =>
          have hd : d ∈ time := by
            have := hct.subset (show d ∈ ')' :: d :: t by simp)
            exact this
          have hdn : d ≠ '\n' := fun h => ht (h ▸ hd)
          simp [stripLit, Ne.symm hdn]
      · simp [stripLit, Ne.symm hcp]
    · rw [stripLit_append]
      simp only [Option.bind]
      exact h3 s
  -- the first capture
  apply lazyDots_capture _ _ _ _ _ hd2
  · intro c t hct
    have hc : c ≠ ' ' := fun h => hd1 (h ▸ mem_of_suffix_cons hct)
    simp [stripLit, Ne.symm hc]
  · rw [stripLit_append]
    simp only [Option.bind]
    exact h2 rest

theorem matchHere_block (date time payload rest : Str)
    (hd1 : ' ' ∉ date) (hd2 : '\n' ∉ date)
    (ht : '\n' ∉ time) (hp : '\n' ∉ payload) :
    matchHere (blockText date time payload ++ rest)
      = some ([blockText date time payload, date, time, payload], rest) := by
  unfold matchHere
  rw [matchItems_block date time payload rest hd1 hd2 ht hp]
  simp

theorem lazyDots_sound (k : Str → Option (List Str × Str)) (s : Str)
    (gs : List Str) (r : Str) (h : lazyDots k s = some (gs, r)) :
    ∃ g gs1 t, s = g ++ t ∧ '\n' ∉ g ∧ k t = some (gs1, r) ∧ gs = g :: gs1 := by
  induction s generalizing gs r with
  | nil =>
    rw [lazyDots] at h
    split at h
    · rename_i gs1 rest hk
      simp only [Option.some.injEq, Prod.mk.injEq] at h
      exact ⟨[], gs1, [], rfl, by simp, by rw [hk, h.2], h.1.symm⟩
    · cases h
  | cons c s ih =>
    rw [lazyDots] at h
    split at h
    · rename_i gs1 rest hk
      simp only [Option.some.injEq, Prod.mk.injEq] at h
      exact ⟨[], gs1, c :: s, rfl, by simp, by rw [hk, h.2], h.1.symm⟩
    · split at h
      · cases h
      · rename_i hk hc
        rcases Option.bind_eq_some.1 h with ⟨⟨gs0, r0⟩, h0, hcons⟩
        obtain ⟨g, gs1, t, hs, hnl, hkt, hgs⟩ := ih gs0 r0 h0
        subst hgs
        simp only [consCapture, Option.some.injEq, Prod.mk.injEq] at hcons
        refine ⟨c :: g, gs1, t, by rw [hs]; rfl, ?_, ?_, hcons.1.symm⟩
        · intro hm
          rcases List.mem_cons.1 hm with hm | hm
          · exact hc hm.symm
          · exact hnl hm
        · rw [hkt, hcons.2]

/-- A match of the expression at the start of a text is a block followed by
the text left over, and the captures hold no newline. -/
theorem matchItems_markRegex_sound (s : Str) (gs : List Str) (r : Str)
    (h : matchItems markRegex s = some (gs, r)) :
    ∃ g1 g2 g3, gs = [g1, g2, g3] ∧ s = blockText g1 g2 g3 ++ r ∧
      '\n' ∉ g1 ∧ '\n' ∉ g2 ∧ '\n' ∉ g3 := by
  simp only [markRegex, matchItems] at h
  rcases Option.bind_eq_some.1 h with ⟨s1, hs1, h1⟩
  obtain ⟨g1, gs1, t1, e1, n1, k1, rfl⟩ := lazyDots_sound _ _ _ _ h1
  rcases Option.bind_eq_some.1 k1 with ⟨s2, hs2, h2⟩
  obtain ⟨g2, gs2, t2, e2, n2, k2, rfl⟩ := lazyDots_sound _ _ _ _ h2
  rcases Option.bind_eq_some.1 k2 with ⟨s3, hs3, h3⟩
  obtain ⟨g3, gs3, t3, e3, n3, k3, rfl⟩ := lazyDots_sound _ _ _ _ h3
  rcases Option.bind_eq_some.1 k3 with ⟨s4, hs4, h4⟩
  simp only [Option.some.injEq, Prod.mk.injEq] at h4
  refine ⟨g1, g2, g3, by rw [← h4.1], ?_, n1, n2, n3⟩
  rw [stripLit_sound _ _ _ hs1, e1, stripLit_sound _ _ _ hs2, e2,
    stripLit_sound _ _ _ hs3, e3, stripLit_sound _ _ _ hs4, h4.2]
  simp [blockText, List.append_assoc]

theorem matchHere_sound (s : Str) (m : List Str) (r : Str)
    (h : matchHere s = some (m, r)) :
    ∃ g1 g2 g3, m = [blockText g1 g2 g3, g1, g2, g3] ∧ s = blockText g1 g2 g3 ++ r ∧
      '\n' ∉ g1 ∧ '\n' ∉ g2 ∧ '\n' ∉ g3 := by
  unfold matchHere at h
  split at h
  · rename_i gs rest hm
    obtain ⟨g1, g2, g3, hgs, hs, n1, n2, n3⟩ := matchItems_markRegex_sound _ _ _ hm
    simp only [Option.some.injEq, Prod.mk.injEq] at h
    refine ⟨g1, g2, g3, ?_, by rw [← h.2]; exact hs, n1, n2, n3⟩
    rw [← h.1, hgs, hs]
    simp
  · cases h

theorem matchHere_length (s : Str) (m : List Str) (r : Str)
    (h : matchHere s = some (m, r)) : r.length < s.length := by
  obtain ⟨g1, g2, g3, _, hs, _⟩ := matchHere_sound s m r h
  rw [hs]
  simp only [blockText, List.length_append, List.length_cons, List.length_nil]
  omega

/-- The bound on the steps is never reached: any two bounds above the length
of the text give the same matches. -/
theorem findAllFuel_stable (n m : Nat) (s : Str) (hn : s.length < n) (hm : s.length < m) :
    findAllFuel n s = findAllFuel m s := by
  induction n generalizing m s with
  | zero => omega
  | succ n ih =>
    cases m with
    | zero => omega
    | succ m =>
      simp only [findAllFuel]
      cases hh : matchHere s with
      | some p =>
        obtain ⟨mm, rest⟩ := p
        have hl := matchHere_length s mm rest hh
        simp only
        rw [ih m rest (by omega) (by omega)]
      | none =>
        cases s with
        | nil => rfl
        | cons c t =>
          simp only
          simp only [List.length_cons] at hn hm
          exact ih m t (by omega) (by omega)

theorem findAllFuel_succ (n : Nat) (s : Str) :
    findAllFuel (n + 1) s =
      match matchHere s with
      | some (m, rest) => m :: findAllFuel n rest
      | none =>
        match s with
        | [] => []
        | _ :: t => findAllFuel n t := by
  cases s <;> rfl

theorem findAll_nil : findAllStringSubmatch [] = [] := by decide

theorem findAll_of_match (s : Str) (m : List Str) (rest : Str)
    (h : matchHere s = some (m, rest)) :
    findAllStringSubmatch s = m :: findAllStringSubmatch rest := by
  have hl := matchHere_length s m rest h
  have e : findAllFuel (s.length + 1) s = m :: findAllFuel s.length rest := by
    rw [findAllFuel_succ]
    simp only [h]
  unfold findAllStringSubmatch
  rw [e, findAllFuel_stable s.length (rest.length + 1) rest hl (by omega)]

theorem findAll_of_no_match (c : Char) (t : Str) (h : matchHere (c :: t) = none) :
    findAllStringSubmatch (c :: t) = findAllStringSubmatch t := by
  unfold findAllStringSubmatch
  rw [findAllFuel_succ]
  simp only [h, List.length_cons]

theorem matchHere_none_of_head (c : Char) (t : Str) (h : c ≠ '&') :
    matchHere (c :: t) = none := by
  simp [matchHere, markRegex, matchItems, stripLit, Ne.symm h]

theorem extract_of_match (s : Str) (m : List Str) (rest : Str)
    (h : matchHere s = some (m, rest)) :
    extract s = (recordOfMatch m).toList ++ extract rest := by
  unfold extract
  rw [findAll_of_match s m rest h, List.filterMap_cons]
  cases recordOfMatch m <;> simp

theorem extract_of_no_match (c : Char) (t : Str) (h : matchHere (c :: t) = none) :
    extract (c :: t) = extract t := by
  unfold extract
  rw [findAll_of_no_match c t h]

theorem Block.wellFormed_facts (b : Block) (h : b.wellFormed) :
    ' ' ∉ b.date ∧ '\n' ∉ b.date ∧ '\n' ∉ b.time ∧ '\n' ∉ b.payload :=
  ⟨not_mem_of_no_space _ _ blank_isSpace h.1, not_mem_of_no_space _ _ newline_isSpace h.1,
    not_mem_of_no_space _ _ newline_isSpace h.2.1, h.2.2⟩

/-- A well-formed block at the start of a text gives its record first, then
the records of the rest of the text. -/
theorem extract_block_append (b : Block) (h : b.wellFormed) (rest : Str) :
    extract (b.text ++ rest) = b.record :: extract rest := by
  obtain ⟨h1, h2, h3, h4⟩ := b.wellFormed_facts h
  show extract (blockText b.date b.time b.payload ++ rest) = _
  rw [extract_of_match _ _ _ (matchHere_block b.date b.time b.payload rest h1 h2 h3 h4)]
  rfl

theorem extract_nil : extract [] = [] := by decide

theorem extract_newline (t : Str) : extract ('\n' :: t) = extract t :=
  extract_of_no_match _ _ (matchHere_none_of_head _ _ (by decide))

/-! ## `strings.TrimSpace` against its description -/

/-- The result of `trimSpace` is the payload without the white space around
it: what was cut on both sides is white space, and what is left neither
starts nor ends with white space. -/
theorem trimSpace_isTrimOf (s : Str) : IsTrimOf (trimSpace s) s := by
  have hs : s = s.takeWhile isSpace ++ s.dropWhile isSpace :=
    (List.takeWhile_append_dropWhile isSpace s).symm
  have hm : s.dropWhile isSpace
      = ((s.dropWhile isSpace).reverse.dropWhile isSpace).reverse ++
        ((s.dropWhile isSpace).reverse.takeWhile isSpace).reverse := by
    rw [← List.reverse_append, List.takeWhile_append_dropWhile, List.reverse_reverse]
  refine ⟨s.takeWhile isSpace, ((s.dropWhile isSpace).reverse.takeWhile isSpace).reverse,
    ?_, ?_, ?_, ?_, ?_⟩
  · unfold trimSpace
    rw [List.append_assoc, ← hm]
    exact hs
  · intro c hc
    exact List.mem_takeWhile_imp hc
  · intro c hc
    exact List.mem_takeWhile_imp (List.mem_reverse.1 hc)
  · intro c hc
    unfold trimSpace at hc
    have hhead : (s.dropWhile isSpace).head? = some c := by
      rw [hm, List.head?_append, hc]
      rfl
    have h := List.head?_dropWhile_not isSpace s
    rw [hhead] at h
    exact h
  · intro c hc
    unfold trimSpace at hc
    rw [List.getLast?_reverse] at hc
    have h := List.head?_dropWhile_not isSpace (s.dropWhile isSpace).reverse
    rw [hc] at h
    exact h

theorem dropWhile_append_stop (p : Char → Bool) (xs ys : Str)
    (hx : ∀ x ∈ xs, p x = true) (hy : ∀ y, ys.head? = some y → p y = false) :
    (xs ++ ys).dropWhile p = ys := by
  induction xs with
  | nil =>
    cases ys with
    | nil => rfl
    | cons y ys => simp [List.dropWhile_cons, hy y rfl]
  | cons x xs ih =>
    rw [List.cons_append, List.dropWhile_cons, hx x (List.mem_cons_self _ _)]
    exact ih (fun z hz => hx z (List.mem_cons_of_mem _ hz))

/-- The description determines the result: a text that is the payload
without the white space around it is `trimSpace` of the payload. -/
theorem isTrimOf_unique (core payload : Str) (h : IsTrimOf core payload) :
    core = trimSpace payload := by
  obtain ⟨lead, trail, hp, hl, ht, hh, hg⟩ := h
  unfold trimSpace
  cases core with
  | nil =>
    have hall : ∀ x ∈ payload, isSpace x = true := by
      intro x hx
      rw [hp] at hx
      simp only [List.append_nil, List.mem_append] at hx
      rcases hx with hx | hx
      · exact hl x hx
      · exact ht x hx
    have : payload.dropWhile isSpace = [] := List.dropWhile_eq_nil_iff.2 hall
    rw [this]
    rfl
  | cons c cs =>
    have h1 : payload.dropWhile isSpace = (c :: cs) ++ trail := by
      rw [hp, List.append_assoc]
      apply dropWhile_append_stop isSpace lead _ hl
      intro y hy
      exact hh y (by simpa using hy)
    have h2 : ((c :: cs) ++ trail).reverse.dropWhile isSpace = (c :: cs).reverse := by
      rw [List.reverse_append]
      apply dropWhile_append_stop isSpace _ _ (fun x hx => ht x (List.mem_reverse.1 hx))
      intro y hy
      rw [List.head?_reverse] at hy
      exact hg y hy
    rw [h1, h2, List.reverse_reverse]

/-! ## The claim on the extractor -/

/-- The records of a buffer of well-formed blocks, through `Block.record`. -/
theorem extract_blocks_records (bs : List Block) (h : ∀ b ∈ bs, b.wellFormed) :
    extract (List.intercalate ['\n'] (bs.map Block.text)) = bs.map Block.record := by
  induction bs with
  | nil => exact extract_nil
  | cons b bs ih =>
    have hb := h b (List.mem_cons_self _ _)
    have hbs : ∀ x ∈ bs, x.wellFormed := fun x hx => h x (List.mem_cons_of_mem _ hx)
    cases bs with
    | nil =>
      have : List.intercalate ['\n'] ([b].map Block.text) = b.text ++ [] := by
        simp [List.intercalate]
      rw [this, extract_block_append b hb, extract_nil]
      rfl
    | cons b2 bs =>
      have : List.intercalate ['\n'] ((b :: b2 :: bs).map Block.text)
          = b.text ++ ('\n' :: List.intercalate ['\n'] ((b2 :: bs).map Block.text)) := by
        simp [List.intercalate]
      rw [this, extract_block_append b hb, extract_newline, ih hbs]
      rfl

/-- C7: a buffer of well-formed blocks separated by newlines gives one record
per block, in the order of the blocks, repeated blocks included; the record
of a block has the date and the time of the block, and its data is the
payload without the white space before and after it: the payload is that
data between two runs of white space, and the data neither starts nor ends
with white space. -/
theorem extract_blocks (bs : List Block) (h : ∀ b ∈ bs, b.wellFormed) :
    List.Forall₂
      (fun b r => r.Date = b.date ∧ r.Time = b.time ∧ IsTrimOf r.Data b.payload)
      bs (extract (List.intercalate ['\n'] (bs.map Block.text))) := by
  rw [extract_blocks_records bs h, List.forall₂_map_right_iff, List.forall₂_same]
  intro b _
  exact ⟨rfl, rfl, trimSpace_isTrimOf b.payload⟩

/-- C7, at the block of 2024-01-01 12:00:00 with payload Temp=20C, once
plain and once with blanks, a tab and a carriage return around the payload,
in one buffer. -/
theorem extract_blocks_witness :
    List.Forall₂
      (fun b r => r.Date = b.date ∧ r.Time = b.time ∧ IsTrimOf r.Data b.payload)
      blocksTemp (extract (List.intercalate ['\n'] (blocksTemp.map Block.text))) :=
  extract_blocks blocksTemp (by
    intro b hb
    simp only [blocksTemp, List.mem_cons, List.mem_singleton, List.not_mem_nil, or_false] at hb
    rcases hb with rfl | rfl <;> exact ⟨by decide, by decide, by decide⟩)

/-- The same buffer evaluated: both blocks give the record
("2024-01-01", "12:00:00", "Temp=20C"), the second one trimmed on both
sides. -/
theorem extract_blocksTemp :
    extract (List.intercalate ['\n'] (blocksTemp.map Block.text))
      = [⟨"2024-01-01".toList, "12:00:00".toList, "Temp=20C".toList⟩,
         ⟨"2024-01-01".toList, "12:00:00".toList, "Temp=20C".toList⟩] := by
  decide

/-! ## Lemmas on the sheet -/

theorem getCell_setCellValue (sh : Sheet) (c r : Nat) (v : Str) (c2 r2 : Nat) :
    getCell (setCellValue sh c r v) c2 r2
      = if (c2, r2) = (c, r) then v else getCell sh c2 r2 := by
  unfold getCell setCellValue
  rw [List.lookup_cons]
  by_cases h : (c2, r2) = (c, r)
  · simp [h]
  · have : ((c2, r2) == (c, r)) = false := by simpa using h
    simp [this, h]

theorem mem_of_lookup {k : Nat × Nat} {v : Str} (sh : Sheet)
    (h : sh.lookup k = some v) : (k, v) ∈ sh := by
  induction sh with
  | nil => simp at h
  | cons e sh ih =>
    obtain ⟨a, b⟩ := e
    rw [List.lookup_cons] at h
    by_cases hk : (k == a) = true
    · simp only [hk, Option.some.injEq] at h
      have : k = a := by simpa using hk
      rw [this, h]
      exact List.mem_cons_self _ _
    · have hk2 : (k == a) = false := by simpa using hk
      simp only [hk2] at h
      exact List.mem_cons_of_mem _ (ih h)

theorem exists_entry_of_getCell (sh : Sheet) (c r : Nat) (h : getCell sh c r ≠ []) :
    ∃ v, ((c, r), v) ∈ sh := by
  unfold getCell at h
  cases hl : sh.lookup (c, r) with
  | none => simp [hl] at h
  | some v => exact ⟨v, mem_of_lookup sh hl⟩

theorem le_foldr_max (l : List Nat) (x : Nat) (h : x ∈ l) : x ≤ l.foldr max 0 := by
  induction l with
  | nil => cases h
  | cons a l ih =>
    simp only [List.foldr_cons]
    rcases List.mem_cons.1 h with h | h
    · rw [h]
      exact le_max_left _ _
    · exact le_trans (ih h) (le_max_right _ _)

/-- A non-blank cell lies in a row that `GetRows` returns. -/
theorem le_lastRow (sh : Sheet) (c r : Nat) (h : getCell sh c r ≠ []) : r ≤ lastRow sh := by
  obtain ⟨v, hv⟩ := exists_entry_of_getCell sh c r h
  unfold lastRow
  apply le_foldr_max
  rw [List.mem_map]
  exact ⟨((c, r), v), hv, by simp [h]⟩

theorem getRows_length (sh : Sheet) : (getRows sh).length = lastRow sh := by
  simp [getRows]

theorem getCell_appendRecord (st : State) (r : MarkRecord) (c row : Nat) :
    getCell (appendRecord st r).excel c row
      = if (c, row) = (3, st.rowCount) then r.Data
        else if (c, row) = (2, st.rowCount) then r.Time
        else if (c, row) = (1, st.rowCount) then r.Date
        else getCell st.excel c row := by
  simp only [appendRecord, getCell_setCellValue]

theorem getCell_appendRecord_other (st : State) (r : MarkRecord) (c row : Nat)
    (h : row ≠ st.rowCount) :
    getCell (appendRecord st r).excel c row = getCell st.excel c row := by
  rw [getCell_appendRecord]
  simp [h]

/-- What holds at the start and is kept by an append and by a move of the
cursor holds after every iteration of the loop. -/
theorem foldl_processMatch_induction (P : State → Prop)
    (happ : ∀ st r, P st → P (appendRecord st r))
    (ms : List (List Str)) (b : Batch) (h : P b.st) :
    P (ms.foldl processMatch b).st := by
  induction ms generalizing b with
  | nil => exact h
  | cons m ms ih =>
    rw [List.foldl_cons]
    apply ih
    unfold processMatch
    split
    · exact h
    · split
      · exact h
      · exact happ _ _ h

theorem pollStep_induction (P : State → Prop)
    (happ : ∀ st r, P st → P (appendRecord st r))
    (hpos : ∀ st p, P st → P { st with lastPos := p })
    (env : PollEnv) (st : State) (h : P st) : P (pollStep env st).1 := by
  unfold pollStep
  split
  · exact h
  · split
    · exact h
    · split
      · exact h
      · split
        · exact h
        · split
          · exact h
          · simp only []
            split
            · exact foldl_processMatch_induction P happ _ _ (hpos _ _ h)
            · exact hpos _ _ h

theorem run_induction (P : State → Prop)
    (happ : ∀ st r, P st → P (appendRecord st r))
    (hpos : ∀ st p, P st → P { st with lastPos := p })
    (envs : List PollEnv) (st : State) (h : P st) : P (run envs st).1 := by
  induction envs generalizing st with
  | nil => exact h
  | cons env envs ih =>
    simp only [run]
    exact ih _ (pollStep_induction P happ hpos env st h)

/-! ## The claim on the rows appended -/

/-- C9, as stated, fails for an existing sheet with zero rows: the counter
starts at 1, not at 2, and the first record is written to row 1. -/
theorem append_to_empty_sheet_uses_row_one :
    (startup (OutputFile.present [])).map (fun st => st.rowCount) = some 1 ∧
    (startup (OutputFile.present [])).map
      (fun st => getRows (run [asciiFile fileOld] st).1.excel)
      = some [["d1".toList, "t1".toList, "old".toList]] := by
  decide

/-- C9, amended: after the start (new sheet, or existing sheet with any rows
read back) the row counter is at least 1, at least 2 when the sheet is new or
at least one row was read back, and above every row holding a value; an
append writes its three fields to the row of the counter, leaves every other
row as it was, adds one to the counter and keeps the counter above every row
holding a value; so over any run of the loop the counter never decreases and
the rows below the first counter (the header and the rows read back) keep
their cells. -/
theorem append_rows_above_existing (f : OutputFile) (st0 : State)
    (h : startup f = some st0) :
    1 ≤ st0.rowCount ∧
    ((f = OutputFile.absent ∨ ∃ sh, f = OutputFile.present sh ∧ getRows sh ≠ []) →
      2 ≤ st0.rowCount) ∧
    (∀ c row, getCell st0.excel c row ≠ [] → row < st0.rowCount) ∧
    (∀ st r, (∀ c row, getCell st.excel c row ≠ [] → row < st.rowCount) →
      getCell (appendRecord st r).excel 1 st.rowCount = r.Date ∧
      getCell (appendRecord st r).excel 2 st.rowCount = r.Time ∧
      getCell (appendRecord st r).excel 3 st.rowCount = r.Data ∧
      (∀ c row, row ≠ st.rowCount →
        getCell (appendRecord st r).excel c row = getCell st.excel c row) ∧
      (appendRecord st r).rowCount = st.rowCount + 1 ∧
      (∀ c row, getCell (appendRecord st r).excel c row ≠ [] →
        row < (appendRecord st r).rowCount)) ∧
    (∀ envs, st0.rowCount ≤ (run envs st0).1.rowCount ∧
      (∀ c row, row < st0.rowCount →
        getCell (run envs st0).1.excel c row = getCell st0.excel c row) ∧
      (∀ c row, getCell (run envs st0).1.excel c row ≠ [] →
        row < (run envs st0).1.rowCount)) := by
  have hinv0 : ∀ c row, getCell st0.excel c row ≠ [] → row < st0.rowCount := by
    intro c row hne
    cases f with
    | absent =>
      simp only [startup, Option.some.injEq] at h
      subst h
      simp only [newSheet, getCell_setCellValue] at hne ⊢
      by_cases h1 : row = 1
      · omega
      · simp [h1, getCell] at hne
    | unreadable => simp [startup] at h
    | present sh =>
      simp only [startup, Option.some.injEq] at h
      subst h
      simp only [getRows_length]
      exact Nat.lt_succ_of_le (le_lastRow sh c row hne)
  have happ : ∀ st r, (∀ c row, getCell st.excel c row ≠ [] → row < st.rowCount) →
      ∀ c row, getCell (appendRecord st r).excel c row ≠ [] →
        row < (appendRecord st r).rowCount := by
    intro st r hinv c row hne
    show row < st.rowCount + 1
    by_cases hr : row = st.rowCount
    · omega
    · rw [getCell_appendRecord_other st r c row hr] at hne
      exact Nat.lt_succ_of_lt (hinv c row hne)
  refine ⟨?_, ?_, hinv0, ?_, ?_⟩
  · cases f with
    | absent =>
      simp only [startup, Option.some.injEq] at h
      subst h
      decide
    | unreadable => simp [startup] at h
    | present sh =>
      simp only [startup, Option.some.injEq] at h
      subst h
      exact Nat.le_add_left _ _
  · intro hf
    rcases hf with hf | ⟨sh, hf, hrows⟩
    · subst hf
      simp only [startup, Option.some.injEq] at h
      subst h
      exact le_rfl
    · subst hf
      simp only [startup, Option.some.injEq] at h
      subst h
      have : 0 < (getRows sh).length := List.length_pos.2 hrows
      show 2 ≤ (getRows sh).length + 1
      omega
  · intro st r hinv
    refine ⟨?_, ?_, ?_, fun c row hr => getCell_appendRecord_other st r c row hr, rfl,
      happ st r hinv⟩
    · rw [getCell_appendRecord]; simp
    · rw [getCell_appendRecord]; simp
    · rw [getCell_appendRecord]; simp
  · intro envs
    apply run_induction (fun st => st0.rowCount ≤ st.rowCount ∧
      (∀ c row, row < st0.rowCount → getCell st.excel c row = getCell st0.excel c row) ∧
      (∀ c row, getCell st.excel c row ≠ [] → row < st.rowCount))
    · intro st r ⟨h1, h2, h3⟩
      refine ⟨Nat.le_succ_of_le h1, ?_, happ st r h3⟩
      intro c row hrow
      rw [getCell_appendRecord_other st r c row (by omega)]
      exact h2 c row hrow
    · intro st p hP
      exact hP
    · exact ⟨le_rfl, fun _ _ _ => rfl, hinv0⟩

/-- C9, amended, at the start with no output file. -/
theorem append_rows_above_existing_witness :
    1 ≤ freshState.rowCount ∧
    ((OutputFile.absent = OutputFile.absent ∨
        ∃ sh, OutputFile.absent = OutputFile.present sh ∧ getRows sh ≠ []) →
      2 ≤ freshState.rowCount) ∧
    (∀ c row, getCell freshState.excel c row ≠ [] → row < freshState.rowCount) ∧
    (∀ st r, (∀ c row, getCell st.excel c row ≠ [] → row < st.rowCount) →
      getCell (appendRecord st r).excel 1 st.rowCount = r.Date ∧
      getCell (appendRecord st r).excel 2 st.rowCount = r.Time ∧
      getCell (appendRecord st r).excel 3 st.rowCount = r.Data ∧
      (∀ c row, row ≠ st.rowCount →
        getCell (appendRecord st r).excel c row = getCell st.excel c row) ∧
      (appendRecord st r).rowCount = st.rowCount + 1 ∧
      (∀ c row, getCell (appendRecord st r).excel c row ≠ [] →
        row < (appendRecord st r).rowCount)) ∧
    (∀ envs, freshState.rowCount ≤ (run envs freshState).1.rowCount ∧
      (∀ c row, row < freshState.rowCount →
        getCell (run envs freshState).1.excel c row = getCell freshState.excel c row) ∧
      (∀ c row, getCell (run envs freshState).1.excel c row ≠ [] →
        row < (run envs freshState).1.rowCount)) :=
  append_rows_above_existing OutputFile.absent freshState rfl

/-! ## The loop as a fold over the extracted records -/

theorem processMatch_st (b : Batch) (m : List Str) :
    (processMatch b m).st =
      match recordOfMatch m with
      | none => b.st
      | some r => acceptRecord b.st r := by
  unfold processMatch acceptRecord
  split
  · rfl
  · split <;> rfl

theorem foldl_processMatch_st (ms : List (List Str)) (b : Batch) :
    (ms.foldl processMatch b).st = (ms.filterMap recordOfMatch).foldl acceptRecord b.st := by
  induction ms generalizing b with
  | nil => rfl
  | cons m ms ih =>
    rw [List.foldl_cons, ih, processMatch_st, List.filterMap_cons]
    cases recordOfMatch m <;> rfl

theorem processMatches_st (st : State) (ms : List (List Str)) :
    (processMatches st ms).st = (ms.filterMap recordOfMatch).foldl acceptRecord st :=
  foldl_processMatch_st ms _

/-- The state after one iteration: the cursor moved as `pollRecords` says,
then the extracted records taken one by one. -/
theorem pollStep_state (env : PollEnv) (st : State) :
    (pollStep env st).1 = (pollRecords env st.lastPos).1.foldl acceptRecord
      { st with lastPos := (pollRecords env st.lastPos).2 } := by
  unfold pollStep pollRecords
  by_cases h1 : env.openErr = true
  · simp [h1]
  · by_cases h2 : env.statErr = true
    · simp [h1, h2]
    · by_cases h3 : env.size ≤ st.lastPos
      · simp [h1, h2, h3]
      · by_cases h4 : env.seekErr = true
        · simp [h1, h2, h3, h4]
        · by_cases h5 : env.scanErr = true
          · simp [h1, h2, h3, h4, h5]
          · simp only [h1, h2, h3, h4, h5, if_false, Bool.or_self, decide_False,
              Bool.false_eq_true, Bool.not_eq_true]
            split
            · rw [processMatches_st]
              rfl
            · rename_i hlen
              have hnil : findAllStringSubmatch (readContent (env.readAt st.lastPos)) = [] := by
                cases hm : findAllStringSubmatch (readContent (env.readAt st.lastPos)) with
                | nil => rfl
                | cons a l => simp [hm] at hlen
              simp [extract, hnil]

theorem acceptRecord_lastPos (st : State) (r : MarkRecord) (p : Nat) :
    acceptRecord { st with lastPos := p } r = { acceptRecord st r with lastPos := p } := by
  unfold acceptRecord
  split <;> rfl

theorem foldl_acceptRecord_lastPos (rs : List MarkRecord) (st : State) (p : Nat) :
    rs.foldl acceptRecord { st with lastPos := p }
      = { rs.foldl acceptRecord st with lastPos := p } := by
  induction rs generalizing st with
  | nil => rfl
  | cons r rs ih => rw [List.foldl_cons, List.foldl_cons, acceptRecord_lastPos, ih]

/-- The state after a run: the records extracted over the iterations taken
one by one, and the cursor of the last iteration. -/
theorem run_state (envs : List PollEnv) (st : State) :
    (run envs st).1 = { (extractedBy envs st.lastPos).foldl acceptRecord st with
      lastPos := cursorAfter envs st.lastPos } := by
  induction envs generalizing st with
  | nil => rfl
  | cons env envs ih =>
    simp only [run, extractedBy, cursorAfter]
    rw [ih, pollStep_state, foldl_acceptRecord_lastPos, List.foldl_append]
    simp only [foldl_acceptRecord_lastPos]

/-! ## The rows of the sheet and the first occurrences by key -/

theorem tracks_freshState : Tracks freshState [] := by
  refine ⟨rfl, ?_, by decide, rfl, by simp [freshState]⟩
  intro e he
  simp only [freshState, newSheet, setCellValue, List.mem_cons, List.mem_singleton,
    List.not_mem_nil, or_false] at he
  rcases he with rfl | rfl | rfl <;> decide

theorem dataRows_appendRecord (st : State) (r : MarkRecord) (h : 2 ≤ st.rowCount) :
    dataRows (appendRecord st r) = dataRows st ++ [r] := by
  unfold dataRows
  have hrc : (appendRecord st r).rowCount - 2 = (st.rowCount - 2) + 1 := by
    show st.rowCount + 1 - 2 = _
    omega
  rw [hrc, List.range_succ, List.map_append]
  congr 1
  · apply List.map_congr_left
    intro i hi
    have hi2 : i + 2 ≠ st.rowCount := by
      have := List.mem_range.1 hi
      omega
    simp only [getCell_appendRecord_other st r _ _ hi2]
  · have e : st.rowCount - 2 + 2 = st.rowCount := by omega
    simp only [List.map_cons, List.map_nil, e, getCell_appendRecord]
    simp

theorem tracks_acceptRecord (st : State) (acc : List MarkRecord) (r : MarkRecord)
    (h : Tracks st acc) : Tracks (acceptRecord st r) (keepFirstByKey acc r) := by
  obtain ⟨h1, h2, h3, h4, h5⟩ := h
  unfold acceptRecord keepFirstByKey
  by_cases hk : recordKey r ∈ st.existingRecords
  · have hk2 : recordKey r ∈ acc.map recordKey := (h5 _).1 hk
    simp only [hk, hk2, if_true]
    exact ⟨h1, h2, h3, h4, h5⟩
  · have hk2 : recordKey r ∉ acc.map recordKey := fun hm => hk ((h5 _).2 hm)
    simp only [hk, hk2, if_false]
    have hrc : 2 ≤ st.rowCount := by omega
    refine ⟨?_, ?_, ?_, ?_, ?_⟩
    · show st.rowCount + 1 = _
      simp only [List.length_append, List.length_singleton]
      omega
    · intro e he
      show 1 ≤ e.1.1 ∧ e.1.1 ≤ 3 ∧ 1 ≤ e.1.2 ∧ e.1.2 < st.rowCount + 1
      simp only [appendRecord, setCellValue, List.mem_cons] at he
      rcases he with rfl | rfl | rfl | he
      · simp only; omega
      · simp only; omega
      · simp only; omega
      · have := h2 e he
        omega
    · have h11 : (1 : Nat) ≠ st.rowCount := by omega
      rw [getCell_appendRecord_other st r _ _ h11, getCell_appendRecord_other st r _ _ h11,
        getCell_appendRecord_other st r _ _ h11]
      exact h3
    · rw [dataRows_appendRecord st r hrc, h4]
    · intro k
      show k ∈ st.existingRecords.insert (recordKey r) ↔ _
      rw [List.mem_insert_iff, List.map_append, List.mem_append, h5 k]
      simp only [List.map_cons, List.map_nil, List.mem_singleton]
      tauto

theorem tracks_foldl (rs : List MarkRecord) (st : State) (acc : List MarkRecord)
    (h : Tracks st acc) : Tracks (rs.foldl acceptRecord st) (rs.foldl keepFirstByKey acc) := by
  induction rs generalizing st acc with
  | nil => exact h
  | cons r rs ih =>
    simp only [List.foldl_cons]
    exact ih _ _ (tracks_acceptRecord st acc r h)

theorem tracks_lastPos (st : State) (acc : List MarkRecord) (p : Nat) (h : Tracks st acc) :
    Tracks { st with lastPos := p } acc := h

/-- After any run from a new sheet, the sheet holds the header and, from row
2 on, the first occurrence by key of every extracted record, in order. -/
theorem tracks_run (envs : List PollEnv) :
    Tracks (run envs freshState).1 (firstByKey (extractedBy envs 0)) := by
  rw [run_state]
  exact tracks_lastPos _ _ _ (tracks_foldl _ _ _ tracks_freshState)

/-- The data rows after a run from a new sheet are the first occurrences, by
key, of the extracted records, in the order of discovery. -/
theorem dataRows_run (envs : List PollEnv) :
    dataRows (run envs freshState).1 = firstByKey (extractedBy envs 0) :=
  (tracks_run envs).2.2.2.1

/-! ## The dedup map over the records of a run -/

theorem acceptRecord_existing_mono (st : State) (r : MarkRecord) (k : Str)
    (h : k ∈ st.existingRecords) : k ∈ (acceptRecord st r).existingRecords := by
  unfold acceptRecord
  split
  · exact h
  · exact List.mem_insert_iff.2 (Or.inr h)

theorem acceptRecord_key_mem (st : State) (r : MarkRecord) :
    recordKey r ∈ (acceptRecord st r).existingRecords := by
  unfold acceptRecord
  split
  · assumption
  · exact List.mem_insert_iff.2 (Or.inl rfl)

theorem foldl_acceptRecord_existing_mono (rs : List MarkRecord) (st : State) (k : Str)
    (h : k ∈ st.existingRecords) : k ∈ (rs.foldl acceptRecord st).existingRecords := by
  induction rs generalizing st with
  | nil => exact h
  | cons r rs ih => exact ih _ (acceptRecord_existing_mono st r k h)

/-- A record taken a second time changes nothing: it is a duplicate. -/
theorem acceptRecord_twice (st : State) (r : MarkRecord) :
    acceptRecord (acceptRecord st r) r = acceptRecord st r := by
  have h := acceptRecord_key_mem st r
  generalize acceptRecord st r = s at h
  unfold acceptRecord
  simp [h]

/-- Every record the loop has seen has its key in the map. -/
theorem foldl_acceptRecord_key_mem (rs : List MarkRecord) (st : State) (r : MarkRecord)
    (hr : r ∈ rs) : recordKey r ∈ (rs.foldl acceptRecord st).existingRecords := by
  induction rs generalizing st with
  | nil => cases hr
  | cons a rs ih =>
    rw [List.foldl_cons]
    rcases List.mem_cons.1 hr with h | h
    · rw [h]
      exact foldl_acceptRecord_existing_mono rs _ _ (acceptRecord_key_mem st a)
    · exact ih _ h

/-- Records whose keys are all in the map leave the state as it is. -/
theorem foldl_acceptRecord_known (rs : List MarkRecord) (st : State)
    (h : ∀ r ∈ rs, recordKey r ∈ st.existingRecords) : rs.foldl acceptRecord st = st := by
  induction rs with
  | nil => rfl
  | cons a rs ih =>
    have ha : acceptRecord st a = st := by
      unfold acceptRecord
      simp [h a (List.mem_cons_self _ _)]
    rw [List.foldl_cons, ha]
    exact ih (fun r hr => h r (List.mem_cons_of_mem _ hr))

/-! ## The claim on the restart -/

/-- C3: a record whose payload is blank is stored and the sheet is saved
(`saved 1`); its row reads back with two cells, the loop of line 93 skips it,
the seeded map is empty while the map in memory held the key "d|t|", and the
same run after the restart stores the record a second time. -/
theorem blank_payload_not_seeded :
    extractedBy [asciiFile fileBlankPayload] 0 = [⟨"d".toList, "t".toList, []⟩] ∧
    (run [asciiFile fileBlankPayload] freshState).2
      = [Event.added ⟨"d".toList, "t".toList, []⟩, Event.saved 1, Event.sleep 500] ∧
    (run [asciiFile fileBlankPayload] freshState).1.existingRecords = ["d|t|".toList] ∧
    getRows (run [asciiFile fileBlankPayload] freshState).1.excel
      = [["Mark Date".toList, "Mark Time".toList, "Mark Data".toList],
         ["d".toList, "t".toList]] ∧
    seed (getRows (run [asciiFile fileBlankPayload] freshState).1.excel) = [] ∧
    (startup (OutputFile.present (run [asciiFile fileBlankPayload] freshState).1.excel)).map
        (fun st2 => (run [asciiFile fileBlankPayload] st2).2)
      = some [Event.added ⟨"d".toList, "t".toList, []⟩, Event.saved 1, Event.sleep 500] ∧
    (startup (OutputFile.present (run [asciiFile fileBlankPayload] freshState).1.excel)).map
        (fun st2 => dataRows (run [asciiFile fileBlankPayload] st2).1)
      = some [⟨"d".toList, "t".toList, []⟩, ⟨"d".toList, "t".toList, []⟩] := by
  decide

/-! ## A block split over two reads -/

theorem linesOf_ne_nil (s : Str) : linesOf s ≠ [] := by
  induction s with
  | nil => simp [linesOf]
  | cons c cs ih =>
    unfold linesOf
    split
    · simp
    · split <;> simp

theorem linesOf_cons_of_ne (c : Char) (cs : Str) (hc : c ≠ '\n') :
    ∃ l ls, linesOf cs = l :: ls ∧ linesOf (c :: cs) = (c :: l) :: ls := by
  cases h : linesOf cs with
  | nil => exact absurd h (linesOf_ne_nil cs)
  | cons l ls =>
    refine ⟨l, ls, rfl, ?_⟩
    rw [linesOf]
    simp [hc, h]

theorem linesOf_of_no_newline (s : Str) (h : '\n' ∉ s) : linesOf s = [s] := by
  induction s with
  | nil => rfl
  | cons c cs ih =>
    have hc : c ≠ '\n' := fun e => h (by simp [e])
    have hcs : '\n' ∉ cs := fun e => h (List.mem_cons_of_mem _ e)
    obtain ⟨l, ls, h1, h2⟩ := linesOf_cons_of_ne c cs hc
    rw [h2]
    rw [ih hcs] at h1
    simp only [List.cons.injEq] at h1
    rw [← h1.1, ← h1.2]

theorem linesOf_append_newline (x y : Str) :
    linesOf (x ++ '\n' :: y) = linesOf x ++ linesOf y := by
  induction x with
  | nil => simp [linesOf]
  | cons c cs ih =>
    by_cases hc : c = '\n'
    · subst hc
      simp [linesOf, ih]
    · obtain ⟨l, ls, h1, h2⟩ := linesOf_cons_of_ne c cs hc
      obtain ⟨l2, ls2, h3, h4⟩ := linesOf_cons_of_ne c (cs ++ '\n' :: y) hc
      rw [List.cons_append, h4, h2]
      rw [ih, h1] at h3
      simp only [List.cons_append, List.cons.injEq] at h3
      rw [← h3.1, ← h3.2]
      rfl

theorem linesOf_append_no_newline (a m : Str) (hm : '\n' ∉ m) :
    ∃ init last, linesOf (a ++ m) = init ++ [last ++ m] := by
  induction a with
  | nil => exact ⟨[], [], by simp [linesOf_of_no_newline m hm]⟩
  | cons c cs ih =>
    obtain ⟨init, last, h⟩ := ih
    by_cases hc : c = '\n'
    · subst hc
      refine ⟨[] :: init, last, ?_⟩
      simp [linesOf, h]
    · obtain ⟨l, ls, h1, h2⟩ := linesOf_cons_of_ne c (cs ++ m) hc
      rw [List.cons_append, h2]
      rw [h] at h1
      cases init with
      | nil =>
        simp only [List.nil_append, List.cons.injEq] at h1
        exact ⟨[], c :: last, by simp [← h1.1, ← h1.2]⟩
      | cons i is =>
        simp only [List.cons_append, List.cons.injEq] at h1
        exact ⟨(c :: i) :: is, last, by simp [← h1.1, ← h1.2]⟩

theorem linesOf_close (r : Str) :
    ∃ l ls, linesOf ('&' :: ']' :: r) = ('&' :: ']' :: l) :: ls := by
  obtain ⟨l1, ls1, _, h1⟩ := linesOf_cons_of_ne ']' r (by decide)
  obtain ⟨l2, ls2, h2a, h2⟩ := linesOf_cons_of_ne '&' (']' :: r) (by decide)
  rw [h1] at h2a
  simp only [List.cons.injEq] at h2a
  exact ⟨l1, ls1, by rw [h2, ← h2a.1, ← h2a.2]⟩

theorem hasWindow_append (init rest : List Str) (h : hasWindow rest) :
    hasWindow (init ++ rest) := by
  induction init with
  | nil => exact h
  | cons i is ih =>
    have h2 := ih
    cases hr : is ++ rest with
    | nil => rw [hr] at h2; exact h2.elim
    | cons r1 t1 =>
      cases t1 with
      | nil => rw [hr] at h2; exact h2.elim
      | cons r2 t2 =>
        cases t2 with
        | nil => rw [hr] at h2; exact h2.elim
        | cons r3 t3 =>
          rw [List.cons_append, hr]
          rw [hr] at h2
          exact Or.inr h2

/-- A match of the expression somewhere in a text shows in its lines: some
line ends with a header and the line two below starts with `&]`. -/
theorem hasWindow_of_match (a s : Str) (m : List Str) (r : Str)
    (h : matchHere s = some (m, r)) : hasWindow (linesOf (a ++ s)) := by
  obtain ⟨g1, g2, g3, _, hs, n1, n2, n3⟩ := matchHere_sound s m r h
  have e : a ++ s = (a ++ (['&', '[', '('] ++ (g1 ++ (' ' :: (g2 ++ [')']))))) ++
      '\n' :: (g3 ++ '\n' :: ('&' :: ']' :: r)) := by
    rw [hs]
    simp [blockText, List.append_assoc]
  have hm : '\n' ∉ ['&', '[', '('] ++ (g1 ++ (' ' :: (g2 ++ [')']))) := by
    simp only [List.mem_append, List.mem_cons, List.mem_singleton, List.not_mem_nil, or_false,
      not_or]
    refine ⟨⟨by decide, by decide, by decide⟩, n1, by decide, n2, by decide⟩
  obtain ⟨init, last, h1⟩ := linesOf_append_no_newline a _ hm
  obtain ⟨l, ls, h2⟩ := linesOf_close r
  rw [e, linesOf_append_newline, linesOf_append_newline, linesOf_of_no_newline g3 n3, h1, h2,
    List.append_assoc]
  apply hasWindow_append
  exact Or.inl ⟨⟨last, g1, g2, rfl⟩, ⟨l, rfl⟩⟩

/-- A text whose lines have no such window holds no match. -/
theorem findAll_nil_of_no_window (text : Str) (h : ¬ hasWindow (linesOf text)) :
    findAllStringSubmatch text = [] := by
  have key : ∀ s a, text = a ++ s → findAllStringSubmatch s = [] := by
    intro s
    induction s with
    | nil => intro _ _; exact findAll_nil
    | cons c t ih =>
      intro a ha
      have hnone : matchHere (c :: t) = none := by
        cases hm : matchHere (c :: t) with
        | none => rfl
        | some p =>
          obtain ⟨m, r⟩ := p
          exact absurd (ha ▸ hasWindow_of_match a (c :: t) m r hm) h
      rw [findAll_of_no_match c t hnone]
      exact ih (a ++ [c]) (by rw [ha]; simp)
  exact key text [] rfl

theorem dropCR_split (l : Str) : ∃ e, l = dropCR l ++ e := by
  unfold dropCR
  split
  · rename_i hl
    exact ⟨['\r'], (List.dropLast_append_getLast? _ hl).symm⟩
  · exact ⟨[], by simp⟩

theorem dropCR_no_newline (l : Str) (h : '\n' ∉ l) : '\n' ∉ dropCR l := by
  obtain ⟨e, he⟩ := dropCR_split l
  intro hm
  apply h
  rw [he]
  exact List.mem_append_left _ hm

theorem scanLinesGo_line (acc l rest : Str) (h : '\n' ∉ l) :
    scanLinesGo acc (l ++ '\n' :: rest) = dropCR (acc.reverse ++ l) :: scanLinesGo [] rest := by
  induction l generalizing acc with
  | nil => simp [scanLinesGo]
  | cons c cs ih =>
    have hc : c ≠ '\n' := fun e => h (by simp [e])
    have hcs : '\n' ∉ cs := fun e => h (List.mem_cons_of_mem _ e)
    rw [List.cons_append, scanLinesGo]
    simp only [hc, if_false]
    rw [ih (c :: acc) hcs]
    simp

theorem scanLinesGo_last (acc l : Str) (h : '\n' ∉ l) :
    scanLinesGo acc l = if acc.reverse ++ l = [] then [] else [dropCR (acc.reverse ++ l)] := by
  induction l generalizing acc with
  | nil => simp [scanLinesGo]
  | cons c cs ih =>
    have hc : c ≠ '\n' := fun e => h (by simp [e])
    have hcs : '\n' ∉ cs := fun e => h (List.mem_cons_of_mem _ e)
    rw [scanLinesGo]
    simp only [hc, if_false]
    rw [ih (c :: acc) hcs]
    simp

theorem scanLines_line (l rest : Str) (h : '\n' ∉ l) :
    scanLines (l ++ '\n' :: rest) = dropCR l :: scanLines rest := by
  unfold scanLines
  rw [scanLinesGo_line [] l rest h]
  simp

theorem scanLines_last (l : Str) (h : '\n' ∉ l) :
    scanLines l = if l = [] then [] else [dropCR l] := by
  unfold scanLines
  rw [scanLinesGo_last [] l h]
  simp

theorem linesOf_buildBuffer (ls : List Str) (h : ∀ l ∈ ls, '\n' ∉ l) :
    linesOf (buildBuffer ls) = ls ++ [[]] := by
  induction ls with
  | nil => rfl
  | cons l ls ih =>
    have e : buildBuffer (l :: ls) = l ++ '\n' :: buildBuffer ls := by
      simp [buildBuffer]
    rw [e, linesOf_append_newline, linesOf_of_no_newline l (h l (List.mem_cons_self _ _)),
      ih (fun x hx => h x (List.mem_cons_of_mem _ hx))]
    rfl

/-- The buffer of a read holds no match when the lines of the scanner,
followed by the empty rest, have no window. -/
theorem findAll_readContent_nil (data : Str) (ls : List Str) (hls : scanLines data = ls)
    (hnl : ∀ l ∈ ls, '\n' ∉ l) (hw : ¬ hasWindow (ls ++ [[]])) :
    findAllStringSubmatch (readContent data) = [] := by
  apply findAll_nil_of_no_window
  unfold readContent
  rw [hls, linesOf_buildBuffer ls hnl]
  exact hw

theorem split_unique (c : Char) (x1 y1 x2 y2 : Str) (h1 : c ∉ x1) (h2 : c ∉ y1)
    (h : x1 ++ c :: y1 = x2 ++ c :: y2) : x1 = x2 ∧ y1 = y2 := by
  induction x1 generalizing x2 with
  | nil =>
    cases x2 with
    | nil => simpa using h
    | cons d x2 =>
      simp only [List.nil_append, List.cons_append, List.cons.injEq] at h
      exact absurd (h.2 ▸ (by simp : c ∈ x2 ++ c :: y2)) h2
  | cons d x1 ih =>
    cases x2 with
    | nil =>
      simp only [List.nil_append, List.cons_append, List.cons.injEq] at h
      exact absurd (by simp [h.1]) h1
    | cons d2 x2 =>
      simp only [List.cons_append, List.cons.injEq] at h
      obtain ⟨e1, e2⟩ := ih x2 (fun hm => h1 (List.mem_cons_of_mem _ hm)) h.2
      exact ⟨by rw [h.1, e1], e2⟩

theorem hasWindow_two (a b : Str) : ¬ hasWindow [a, b] := fun h => h

theorem hasWindow_three (a b c : Str) (h : hasWindow [a, b, c]) :
    endsWithHeader a ∧ startsWithClose c := by
  rcases h with h | h
  · exact h
  · exact h.elim

theorem hasWindow_four (a b c d : Str) (h : hasWindow [a, b, c, d]) :
    (endsWithHeader a ∧ startsWithClose c) ∨ (endsWithHeader b ∧ startsWithClose d) := by
  rcases h with h | h
  · exact Or.inl h
  · exact Or.inr (hasWindow_three b c d h)

theorem not_startsWithClose_nil : ¬ startsWithClose [] := by
  rintro ⟨l, hl⟩
  cases hl

theorem not_startsWithClose_amp : ¬ startsWithClose ['&'] := by
  rintro ⟨l, hl⟩
  cases hl

theorem headerLine_no_newline (b : Block) (hb : b.wellFormed) : '\n' ∉ headerLine b := by
  obtain ⟨_, h2, h3, _⟩ := b.wellFormed_facts hb
  simp only [headerLine, List.mem_append, List.mem_cons, List.mem_singleton, List.not_mem_nil,
    or_false, not_or]
  exact ⟨⟨by decide, by decide, by decide⟩, h2, by decide, h3, by decide⟩

theorem text_eq_headerLine (b : Block) :
    b.text = headerLine b ++ '\n' :: (b.payload ++ '\n' :: ['&', ']']) := by
  simp [Block.text, blockText, headerLine, List.append_assoc]

/-- No line cut from the header of a well-formed block after its first rune
ends with a header, unless the date holds the opening marker. -/
theorem not_endsWithHeader_of_cut (b : Block) (hb : b.wellFormed)
    (hmark : ¬ containsMarker b.date) (u x e : Str) (hu : u ≠ [])
    (h : headerLine b = u ++ (x ++ e)) : ¬ endsWithHeader x := by
  rintro ⟨a, g1, g2, hx⟩
  have hd : ' ' ∉ b.date := not_mem_of_no_space _ _ blank_isSpace hb.1
  have ht : ' ' ∉ b.time := not_mem_of_no_space _ _ blank_isSpace hb.2.1
  have h1 : ' ' ∉ ['&', '[', '('] ++ b.date := by
    simp only [List.mem_append, List.mem_cons, List.not_mem_nil, or_false, not_or]
    exact ⟨⟨by decide, by decide, by decide⟩, hd⟩
  have h2 : ' ' ∉ b.time ++ [')'] := by
    simp only [List.mem_append, List.mem_singleton, not_or]
    exact ⟨ht, by decide⟩
  have e1 : (['&', '[', '('] ++ b.date) ++ ' ' :: (b.time ++ [')'])
      = (u ++ (a ++ (['&', '[', '('] ++ g1))) ++ ' ' :: (g2 ++ [')'] ++ e) := by
    have : headerLine b = (['&', '[', '('] ++ b.date) ++ ' ' :: (b.time ++ [')']) := by
      simp [headerLine]
    rw [← this, h, hx]
    simp [List.append_assoc]
  obtain ⟨e2, _⟩ := split_unique ' ' _ _ _ _ h1 h2 e1
  cases u with
  | nil => exact hu rfl
  | cons c u =>
    simp only [List.cons_append, List.nil_append, List.cons.injEq] at e2
    obtain ⟨_, e3⟩ := e2
    cases hw : u ++ a with
    | nil =>
      have e4 : '[' :: '(' :: b.date = '&' :: '[' :: '(' :: g1 := by
        rw [e3, ← List.append_assoc, hw]
        rfl
      simp only [List.cons.injEq] at e4
      exact absurd e4.1 (by decide)
    | cons c2 w2 =>
      have e4 : '[' :: '(' :: b.date = c2 :: (w2 ++ '&' :: '[' :: '(' :: g1) := by
        rw [e3, ← List.append_assoc, hw]
        rfl
      simp only [List.cons.injEq] at e4
      cases w2 with
      | nil =>
        have e5 := e4.2
        simp only [List.nil_append, List.cons.injEq] at e5
        exact absurd e5.1 (by decide)
      | cons c3 w3 =>
        have e5 := e4.2
        simp only [List.cons_append, List.cons.injEq] at e5
        exact hmark ⟨w3, g1, e5.2⟩

theorem scanLines_close : scanLines ['&', ']'] = [['&', ']']] := by decide

theorem scanLines_amp : scanLines ['&'] = [['&']] := by decide

theorem newline_not_mem_left {x y z : Str} (h : '\n' ∉ z) (e : z = x ++ y) : '\n' ∉ x :=
  fun hm => h (e ▸ List.mem_append_left _ hm)

theorem newline_not_mem_right {x y z : Str} (h : '\n' ∉ z) (e : z = x ++ y) : '\n' ∉ y :=
  fun hm => h (e ▸ List.mem_append_right _ hm)

/-- The split lies in the header line. -/
theorem split_in_header (b : Block) (hb : b.wellFormed) (hmark : ¬ containsMarker b.date)
    (p a : Str) (hp : p ≠ []) (hH : headerLine b = p ++ a) :
    findAllStringSubmatch (readContent p) = [] ∧
    findAllStringSubmatch (readContent (a ++ '\n' :: (b.payload ++ '\n' :: ['&', ']']))) = [] := by
  have hnl := headerLine_no_newline b hb
  have hpn : '\n' ∉ p := newline_not_mem_left hnl hH
  have han : '\n' ∉ a := newline_not_mem_right hnl hH
  have hP : '\n' ∉ b.payload := hb.2.2
  constructor
  · apply findAll_readContent_nil p [dropCR p]
    · rw [scanLines_last p hpn]
      simp [hp]
    · intro l hl
      rw [List.mem_singleton.1 hl]
      exact dropCR_no_newline p hpn
    · exact hasWindow_two _ _
  · apply findAll_readContent_nil _ [dropCR a, dropCR b.payload, ['&', ']']]
    · rw [scanLines_line _ _ han, scanLines_line _ _ hP, scanLines_close]
    · intro l hl
      simp only [List.mem_cons, List.mem_singleton, List.not_mem_nil, or_false] at hl
      rcases hl with rfl | rfl | rfl
      · exact dropCR_no_newline a han
      · exact dropCR_no_newline _ hP
      · decide
    · intro hw
      rcases hasWindow_four _ _ _ _ hw with h | h
      · obtain ⟨e, he⟩ := dropCR_split a
        exact not_endsWithHeader_of_cut b hb hmark p (dropCR a) e hp (by rw [← he]; exact hH) h.1
      · exact not_startsWithClose_nil h.2

/-- The split lies in the payload line. -/
theorem split_in_payload (b : Block) (hb : b.wellFormed) (c a : Str)
    (hP : b.payload = c ++ a) :
    findAllStringSubmatch (readContent (headerLine b ++ '\n' :: c)) = [] ∧
    findAllStringSubmatch (readContent (a ++ '\n' :: ['&', ']'])) = [] := by
  have hnl := headerLine_no_newline b hb
  have hcn : '\n' ∉ c := newline_not_mem_left hb.2.2 hP
  have han : '\n' ∉ a := newline_not_mem_right hb.2.2 hP
  constructor
  · by_cases hc : c = []
    · apply findAll_readContent_nil _ [dropCR (headerLine b)]
      · rw [scanLines_line _ _ hnl, scanLines_last c hcn]
        simp [hc]
      · intro l hl
        rw [List.mem_singleton.1 hl]
        exact dropCR_no_newline _ hnl
      · exact hasWindow_two _ _
    · apply findAll_readContent_nil _ [dropCR (headerLine b), dropCR c]
      · rw [scanLines_line _ _ hnl, scanLines_last c hcn]
        simp [hc]
      · intro l hl
        simp only [List.mem_cons, List.mem_singleton, List.not_mem_nil, or_false] at hl
        rcases hl with rfl | rfl
        · exact dropCR_no_newline _ hnl
        · exact dropCR_no_newline _ hcn
      · intro hw
        exact not_startsWithClose_nil (hasWindow_three _ _ _ hw).2
  · apply findAll_readContent_nil _ [dropCR a, ['&', ']']]
    · rw [scanLines_line _ _ han, scanLines_close]
    · intro l hl
      simp only [List.mem_cons, List.mem_singleton, List.not_mem_nil, or_false] at hl
      rcases hl with rfl | rfl
      · exact dropCR_no_newline _ han
      · decide
    · intro hw
      exact not_startsWithClose_nil (hasWindow_three _ _ _ hw).2

/-- The split lies in the closing marker. -/
theorem split_in_close (b : Block) (hb : b.wellFormed) :
    findAllStringSubmatch (readContent (headerLine b ++ '\n' :: (b.payload ++ '\n' :: []))) = [] ∧
    findAllStringSubmatch (readContent (headerLine b ++ '\n' :: (b.payload ++ '\n' :: ['&'])))
      = [] ∧
    findAllStringSubmatch (readContent ['&', ']']) = [] ∧
    findAllStringSubmatch (readContent [']']) = [] := by
  have hnl := headerLine_no_newline b hb
  have hP : '\n' ∉ b.payload := hb.2.2
  refine ⟨?_, ?_, by decide, by decide⟩
  · apply findAll_readContent_nil _ [dropCR (headerLine b), dropCR b.payload]
    · rw [scanLines_line _ _ hnl, scanLines_line _ _ hP]
      rfl
    · intro l hl
      simp only [List.mem_cons, List.mem_singleton, List.not_mem_nil, or_false] at hl
      rcases hl with rfl | rfl
      · exact dropCR_no_newline _ hnl
      · exact dropCR_no_newline _ hP
    · intro hw
      exact not_startsWithClose_nil (hasWindow_three _ _ _ hw).2
  · apply findAll_readContent_nil _ [dropCR (headerLine b), dropCR b.payload, ['&']]
    · rw [scanLines_line _ _ hnl, scanLines_line _ _ hP, scanLines_amp]
    · intro l hl
      simp only [List.mem_cons, List.mem_singleton, List.not_mem_nil, or_false] at hl
      rcases hl with rfl | rfl | rfl
      · exact dropCR_no_newline _ hnl
      · exact dropCR_no_newline _ hP
      · decide
    · intro hw
      rcases hasWindow_four _ _ _ _ hw with h | h
      · exact not_startsWithClose_amp h.2
      · exact not_startsWithClose_nil h.2

/-- Neither part of a well-formed block, cut anywhere inside, holds a match
once it went through the scanner, when the date does not hold `&[(`. -/
theorem findAll_split_nil (b : Block) (hb : b.wellFormed) (hmark : ¬ containsMarker b.date)
    (p q : Str) (hsplit : b.text = p ++ q) (hp : p ≠ []) (hq : q ≠ []) :
    findAllStringSubmatch (readContent p) = [] ∧ findAllStringSubmatch (readContent q) = [] := by
  rw [text_eq_headerLine] at hsplit
  rcases List.append_eq_append_iff.1 hsplit.symm with ⟨a, hH, hqa⟩ | ⟨c, hpc, hc⟩
  · rw [hqa]
    exact split_in_header b hb hmark p a hp hH
  · cases c with
    | nil =>
      simp only [List.append_nil, List.nil_append] at hpc hc
      rw [← hc]
      exact split_in_header b hb hmark p [] hp (by rw [hpc]; simp)
    | cons d c =>
      simp only [List.cons_append, List.cons.injEq] at hc
      obtain ⟨hd, hc⟩ := hc
      subst hd
      rcases List.append_eq_append_iff.1 hc.symm with ⟨a, hP, hqa⟩ | ⟨c3, hc3, hq3⟩
      · rw [hpc, hqa]
        exact split_in_payload b hb c a hP
      · cases c3 with
        | nil =>
          simp only [List.append_nil, List.nil_append] at hc3 hq3
          rw [hpc, ← hq3, hc3]
          exact split_in_payload b hb b.payload [] (by simp)
        | cons d3 c4 =>
          simp only [List.cons_append, List.cons.injEq] at hq3
          obtain ⟨hd3, hq3⟩ := hq3
          subst hd3
          obtain ⟨k1, k2, k3, k4⟩ := split_in_close b hb
          cases c4 with
          | nil =>
            simp only [List.nil_append] at hq3
            rw [hpc, hc3, ← hq3]
            exact ⟨k1, k3⟩
          | cons x c5 =>
            simp only [List.cons_append, List.cons.injEq] at hq3
            obtain ⟨hx, hq3⟩ := hq3
            subst hx
            cases c5 with
            | nil =>
              simp only [List.nil_append] at hq3
              rw [hpc, hc3, ← hq3]
              exact ⟨k2, k4⟩
            | cons y c6 =>
              simp only [List.cons_append, List.cons.injEq] at hq3
              have : q = [] := by
                have h2 := hq3.2
                cases c6 with
                | nil => simpa using h2.symm
                | cons z c7 => simp at h2
              exact absurd this hq

theorem pollStep_of_no_match (env : PollEnv) (st : State)
    (hok : env.openErr = false ∧ env.statErr = false ∧ env.seekErr = false ∧
      env.scanErr = false)
    (hsize : st.lastPos < env.size)
    (hnil : findAllStringSubmatch (readContent (env.readAt st.lastPos)) = []) :
    pollStep env st = ({ st with lastPos := env.size }, [Event.sleep 500]) := by
  unfold pollStep
  simp [hok.1, hok.2.1, hok.2.2.1, hok.2.2.2, Nat.not_le.2 hsize, hnil]

theorem byteLen_append (x y : Str) : byteLen (x ++ y) = byteLen x + byteLen y := by
  simp [byteLen]

theorem byteLen_pos (x : Str) (h : x ≠ []) : 0 < byteLen x := by
  cases x with
  | nil => exact absurd rfl h
  | cons c cs =>
    have := c.utf8Size_pos
    simp only [byteLen, List.map_cons, List.sum_cons]
    omega

/-! ## The claim on a block split over two reads -/

/-- C10, as stated, fails when the date holds the opening marker: the block
`&[(&[(x t)`, `y`, `&]` is well-formed; cut after its first three runes, the
first read gives no record but the second read matches the record
("x", "t", "y"), which is stored. -/
theorem split_block_second_read_matches :
    ((∀ c ∈ blockMarkerInDate.date, isSpace c = false) ∧
      (∀ c ∈ blockMarkerInDate.time, isSpace c = false) ∧
      '\n' ∉ blockMarkerInDate.payload) ∧
    blockMarkerInDate.text = "&[(".toList ++ "&[(x t)\ny\n&]".toList ∧
    extract (readContent "&[(".toList) = [] ∧
    extract (readContent "&[(x t)\ny\n&]".toList) = [⟨"x".toList, "t".toList, "y".toList⟩] ∧
    dataRows (run [asciiFile "&[(".toList, asciiFile blockMarkerInDate.text] freshState).1
      = [⟨"x".toList, "t".toList, "y".toList⟩] := by
  decide

/-- C10, amended: for a well-formed block whose date does not hold the
opening marker `&[(` and a cut strictly inside it, when the part before the
cut is what one read gets and the part after it what the next read gets, the
expression matches nothing in either buffer, both iterations only sleep, and
after the second one the cursor is past the whole block while the sheet, the
row counter and the map are as before: the record is not stored. -/
theorem split_block_is_lost (b : Block) (hb : b.wellFormed)
    (hmark : ¬ containsMarker b.date)
    (p q : Str) (hsplit : b.text = p ++ q) (hp : p ≠ []) (hq : q ≠ [])
    (env1 env2 : PollEnv) (st : State)
    (hok1 : env1.openErr = false ∧ env1.statErr = false ∧ env1.seekErr = false ∧
      env1.scanErr = false)
    (hok2 : env2.openErr = false ∧ env2.statErr = false ∧ env2.seekErr = false ∧
      env2.scanErr = false)
    (hsize1 : env1.size = st.lastPos + byteLen p) (hread1 : env1.readAt st.lastPos = p)
    (hsize2 : env2.size = st.lastPos + byteLen b.text) (hread2 : env2.readAt env1.size = q) :
    findAllStringSubmatch (readContent p) = [] ∧
    findAllStringSubmatch (readContent q) = [] ∧
    extract (readContent p) = [] ∧ extract (readContent q) = [] ∧
    run [env1, env2] st
      = ({ st with lastPos := st.lastPos + byteLen b.text },
         [Event.sleep 500, Event.sleep 500]) := by
  obtain ⟨h1, h2⟩ := findAll_split_nil b hb hmark p q hsplit hp hq
  refine ⟨h1, h2, by simp [extract, h1], by simp [extract, h2], ?_⟩
  have hbp := byteLen_pos p hp
  have hbq := byteLen_pos q hq
  have hlen : byteLen b.text = byteLen p + byteLen q := by rw [hsplit, byteLen_append]
  have s1 : pollStep env1 st = ({ st with lastPos := env1.size }, [Event.sleep 500]) :=
    pollStep_of_no_match env1 st hok1 (by omega) (by rw [hread1]; exact h1)
  have s2 : pollStep env2 { st with lastPos := env1.size }
      = ({ st with lastPos := env2.size }, [Event.sleep 500]) :=
    pollStep_of_no_match env2 _ hok2 (by show env1.size < env2.size; omega)
      (by show findAllStringSubmatch (readContent (env2.readAt env1.size)) = []
          rw [hread2]; exact h2)
  simp only [run, s1, s2, hsize2]
  rfl

/-- C10, amended, at the block `&[(d t)`, `x`, `&]` cut after its payload. -/
theorem split_block_is_lost_witness :
    findAllStringSubmatch (readContent cutBefore) = [] ∧
    findAllStringSubmatch (readContent cutAfter) = [] ∧
    extract (readContent cutBefore) = [] ∧ extract (readContent cutAfter) = [] ∧
    run [asciiFile cutBefore, asciiFile (cutBefore ++ cutAfter)] freshState
      = ({ freshState with lastPos := freshState.lastPos + byteLen blockPlain.text },
         [Event.sleep 500, Event.sleep 500]) :=
  split_block_is_lost blockPlain
    ⟨by decide, by decide, by decide⟩
    (by
      rintro ⟨a, c, h⟩
      have := congrArg List.length h
      simp [blockPlain] at this
      omega)
    cutBefore cutAfter (by decide) (by decide) (by decide)
    (asciiFile cutBefore) (asciiFile (cutBefore ++ cutAfter)) freshState
    ⟨rfl, rfl, rfl, rfl⟩ ⟨rfl, rfl, rfl, rfl⟩ (by decide) (by decide) (by decide) (by decide)

end FileSync
